import Mathlib

/-!
Verification development for the type-definition acquisition and caching
pipeline of the react-code-playground repository.

The embedding covers:
* `src/utils/typeFetcher.ts` — `normalizeTypeUrl`, the virtual file system,
  `processFile`, `fetchEntry`, `fetchAndAddTypes`;
* the `TypeCache` class (localStorage-backed persistent cache with expiry,
  ETag revalidation and size-bounded eviction);
* `src/utils/bundler.ts` — `IntelliSenseManager.loadLibrary`,
  `loadLibraries`, `analyzeAndLoadTypes`, `extractImports`.

JavaScript strings are modelled as Lean `String`/`List Char`; the external
world (network, `Date.now()`, `JSON.stringify` serialized-record length,
`ts.preProcessFile`, `new URL` resolution) is an explicit environment
record, with fallible primitives returning `Except String _` so that the
source's try/catch structure is mirrored faithfully.  JavaScript async
functions are embedded as state-passing functions; recursion is fuel-indexed
(every theorem quantifies over the fuel).
-/

namespace RCP

/-! ### Generic list-of-characters string operations (JS semantics) -/

/-- JS `String.prototype.includes(pat)`: `pat` occurs as a contiguous
substring.  Scans every start position, like the JS runtime. -/
def containsL (pat : List Char) : List Char → Bool
  | [] => pat.isEmpty
  | c :: t => pat.isPrefixOf (c :: t) || containsL pat t

/-- JS `String.prototype.replace(/pat/g, rep)` for a plain (regex-free)
pattern `p :: ps`: replace every non-overlapping occurrence, scanning left
to right.  The recursion is fuel-indexed (structural, hence kernel
computable); every step consumes at least one character of the scanned
list, so fuel equal to the list length is always sufficient (all callers
pass exactly that). -/
def replaceAllL (p : Char) (ps rep : List Char) : Nat → List Char → List Char
  | 0, s => s
  | _ + 1, [] => []
  | f + 1, c :: t =>
    if (p :: ps).isPrefixOf (c :: t) then rep ++ replaceAllL p ps rep f (List.drop ps.length t)
    else c :: replaceAllL p ps rep f t

/-- JS `String.prototype.replace(pat, rep)` with a plain string pattern:
replace only the first occurrence. -/
def replaceFirstL (p : Char) (ps rep : List Char) : List Char → List Char
  | [] => []
  | c :: t =>
    if (p :: ps).isPrefixOf (c :: t) then rep ++ List.drop ps.length t
    else c :: replaceFirstL p ps rep t

theorem containsL_iff_infix (pat s : List Char) :
    containsL pat s = true ↔ pat <:+: s := by
  induction s with
  | nil =>
    simp only [containsL, List.isEmpty_iff, List.infix_nil]
  | cons c t ih =>
    simp only [containsL, Bool.or_eq_true, List.isPrefixOf_iff_prefix, ih,
      List.infix_cons_iff]

theorem containsL_eq_false_iff (pat s : List Char) :
    containsL pat s = false ↔ ¬ pat <:+: s := by
  rw [← containsL_iff_infix]
  cases containsL pat s <;> simp

/-- A prefix of the scanned list decomposes it. -/
theorem isPrefixOf_decomp {pat s : List Char} (h : pat.isPrefixOf s = true) :
    ∃ r, s = pat ++ r := by
  rw [List.isPrefixOf_iff_prefix] at h
  exact h.imp fun r hr => hr.symm

theorem length_replaceAllL_le (p : Char) (ps rep : List Char)
    (hlen : rep.length ≤ ps.length + 1) :
    ∀ fuel s, (replaceAllL p ps rep fuel s).length ≤ s.length := by
  intro fuel
  induction fuel with
  | zero => intro s; rw [replaceAllL]
  | succ f ih =>
    intro s
    match s with
    | [] => rw [replaceAllL]
    | c :: t =>
      rw [replaceAllL]
      by_cases hpre : (p :: ps).isPrefixOf (c :: t) = true
      · rw [if_pos hpre]
        obtain ⟨r, hr⟩ := isPrefixOf_decomp hpre
        have hlt : ps.length ≤ t.length := by
          have := congrArg List.length hr
          simp only [List.length_cons, List.length_append] at this
          omega
        have hb := ih (List.drop ps.length t)
        simp only [List.length_append, List.length_cons]
        have hd : (List.drop ps.length t).length = t.length - ps.length := by simp
        omega
      · rw [if_neg hpre]
        have := ih t
        simp only [List.length_cons]
        omega

theorem length_replaceAllL_lt (p : Char) (ps rep : List Char)
    (hlen : rep.length ≤ ps.length + 1) :
    ∀ fuel s, s.length ≤ fuel → containsL (p :: ps) s = true →
      (replaceAllL p ps rep fuel s).length + ((ps.length + 1) - rep.length) ≤ s.length := by
  intro fuel
  induction fuel with
  | zero =>
    intro s hf hc
    interval_cases h : s.length
    · rw [List.length_eq_zero] at h
      subst h
      simp [containsL, List.isEmpty] at hc
  | succ f ih =>
    intro s hf hc
    match s with
    | [] => simp [containsL, List.isEmpty] at hc
    | c :: t =>
      rw [replaceAllL]
      by_cases hpre : (p :: ps).isPrefixOf (c :: t) = true
      · rw [if_pos hpre]
        obtain ⟨r, hr⟩ := isPrefixOf_decomp hpre
        have hlt : ps.length ≤ t.length := by
          have := congrArg List.length hr
          simp only [List.length_cons, List.length_append] at this
          omega
        have hb := length_replaceAllL_le p ps rep hlen f (List.drop ps.length t)
        simp only [List.length_append, List.length_cons]
        have hd : (List.drop ps.length t).length = t.length - ps.length := by simp
        omega
      · rw [if_neg hpre]
        have hct : containsL (p :: ps) t = true := by
          rw [containsL, Bool.or_eq_true] at hc
          rcases hc with h | h
          · exact absurd h (by simpa using hpre)
          · exact h
        have hfl : t.length ≤ f := by
          simp only [List.length_cons] at hf
          omega
        have := ih t hfl hct
        simp only [List.length_cons]
        omega

theorem replaceAllL_of_not_contains (p : Char) (ps rep : List Char) :
    ∀ fuel s, containsL (p :: ps) s = false → replaceAllL p ps rep fuel s = s := by
  intro fuel
  induction fuel with
  | zero => intro s _; rw [replaceAllL]
  | succ f ih =>
    intro s hc
    match s with
    | [] => rw [replaceAllL]
    | c :: t =>
      rw [containsL, Bool.or_eq_false_iff] at hc
      rw [replaceAllL, if_neg (by simp [hc.1]), ih t hc.2]

/-- Characters not occurring in the pattern survive `replaceAllL`. -/
theorem mem_replaceAllL_of_not_mem_pat (p : Char) (ps rep : List Char) (x : Char)
    (hx : x ∉ p :: ps) :
    ∀ fuel s, x ∈ s → x ∈ replaceAllL p ps rep fuel s := by
  intro fuel
  induction fuel with
  | zero => intro s h; rw [replaceAllL]; exact h
  | succ f ih =>
    intro s hmem
    match s with
    | [] => cases hmem
    | c :: t =>
      rw [replaceAllL]
      by_cases hpre : (p :: ps).isPrefixOf (c :: t) = true
      · rw [if_pos hpre]
        obtain ⟨r, hr⟩ := isPrefixOf_decomp hpre
        have hrd : r = List.drop ps.length t := by
          have h2 : List.drop (p :: ps).length (c :: t)
              = List.drop (p :: ps).length ((p :: ps) ++ r) := by rw [hr]
          simp only [List.drop_left] at h2
          simpa using h2.symm
        rw [hr] at hmem
        rcases List.mem_append.mp hmem with h | h
        · exact absurd h hx
        · exact List.mem_append.mpr (Or.inr (ih _ (hrd ▸ h)))
      · rw [if_neg hpre]
        rcases List.mem_cons.mp hmem with h | h
        · exact List.mem_cons.mpr (Or.inl h)
        · exact List.mem_cons.mpr (Or.inr (ih t h))

/-! ### `normalizeTypeUrl` (src/utils/typeFetcher.ts, lines 42-65) -/

/-- The duplicated-extension pattern `".d.ts.d.ts"`, minus its head
character (the head is passed separately to `replaceAllL`). -/
def ddTail : List Char := ['d', '.', 't', 's', '.', 'd', '.', 't', 's']

/-- The pattern `".d.ts.d.ts"` searched for by the `while` loop. -/
def ddPat : List Char := '.' :: ddTail

/-- The declaration-file suffix `".d.ts"`. -/
def dtsSfx : List Char := ['.', 'd', '.', 't', 's']

/-- The substring `".ts"` (the source tests `url.includes(".ts")`). -/
def tsPat : List Char := ['.', 't', 's']

/-- The substring `".js"` (the source tests `url.includes(".js")`). -/
def jsPat : List Char := ['.', 'j', 's']

/-- The `while (url.includes(".d.ts.d.ts")) url = url.replace(/\.d\.ts\.d\.ts/g, ".d.ts")`
loop, fuel-indexed.  Each iteration with a match shortens the string by at
least 5 characters (`length_replaceAllL_lt`), so fuel equal to the string
length is always sufficient (`containsL_collapseDdAux`). -/
def collapseDdAux : Nat → List Char → List Char
  | 0, s => s
  | f + 1, s =>
    if containsL ddPat s then collapseDdAux f (replaceAllL '.' ddTail dtsSfx s.length s) else s

def collapseDd (s : List Char) : List Char := collapseDdAux s.length s

theorem containsL_collapseDdAux :
    ∀ fuel s, s.length ≤ fuel → containsL ddPat (collapseDdAux fuel s) = false := by
  intro fuel
  induction fuel with
  | zero =>
    intro s hs
    interval_cases h : s.length
    · rw [List.length_eq_zero] at h
      subst h
      rfl
  | succ f ih =>
    intro s hs
    rw [collapseDdAux]
    by_cases hc : containsL ddPat s = true
    · rw [if_pos hc]
      apply ih
      have := length_replaceAllL_lt '.' ddTail dtsSfx (by decide) s.length s le_rfl
        (by rw [ddPat] at hc; exact hc)
      have hlen : ddTail.length = 9 := by decide
      have hrl : dtsSfx.length = 5 := by decide
      omega
    · rw [if_neg hc]
      simpa using hc

/-- After the collapse loop no duplicated extension remains. -/
theorem containsL_collapseDd (s : List Char) :
    containsL ddPat (collapseDd s) = false :=
  containsL_collapseDdAux s.length s le_rfl

/-- The collapse loop is the identity when the pattern is absent. -/
theorem collapseDd_of_not_contains {s : List Char}
    (h : containsL ddPat s = false) : collapseDd s = s := by
  rw [collapseDd]
  cases hl : s.length with
  | zero => rfl
  | succ n => rw [collapseDdAux, h]; simp

/-- Characters outside the pattern survive the collapse loop. -/
theorem mem_collapseDdAux_of_not_mem {x : Char} (hx : x ∉ ddPat) :
    ∀ fuel s, x ∈ s → x ∈ collapseDdAux fuel s := by
  intro fuel
  induction fuel with
  | zero => intro s h; exact h
  | succ f ih =>
    intro s h
    rw [collapseDdAux]
    by_cases hc : containsL ddPat s = true
    · rw [if_pos hc]
      exact ih _ (mem_replaceAllL_of_not_mem_pat '.' ddTail dtsSfx x hx s.length s h)
    · rw [if_neg hc]; exact h

/-- `url.endsWith(".d.ts")`. -/
def endsDtsL (s : List Char) : Bool := dtsSfx.isSuffixOf s

/-- `url.endsWith("/")`. -/
def endsSlashL (s : List Char) : Bool := ['/'].isSuffixOf s

/-- The conditional chain of `normalizeTypeUrl` after the collapse loop:
early return for URLs already ending in `".d.ts"`, then the query-string
check, then the directory/extension check, finally the `".d.ts"` append for
bare paths. -/
def normStep (u : List Char) : List Char :=
  if endsDtsL u then u
  else if u.contains '?' then u
  else if endsSlashL u || containsL tsPat u || containsL jsPat u then u
  else u ++ dtsSfx

/-- `normalizeTypeUrl` on character lists: the collapse loop followed by the
conditional chain. -/
def normalizeTypeUrlL (u0 : List Char) : List Char := normStep (collapseDd u0)

/-- `normalizeTypeUrl` (src/utils/typeFetcher.ts line 42). -/
def normalizeTypeUrl (url : String) : String := ⟨normalizeTypeUrlL url.data⟩

/-- Appending `".d.ts"` to a string containing no `".ts"` substring cannot
create the duplicated pattern `".d.ts.d.ts"`. -/
theorem not_contains_dd_append {v : List Char} (hts : containsL tsPat v = false) :
    containsL ddPat (v ++ dtsSfx) = false := by
  rw [containsL_eq_false_iff] at hts ⊢
  intro hinf
  apply hts
  obtain ⟨l1, l2, h⟩ := hinf
  have hdd : ddPat = dtsSfx ++ dtsSfx := by rfl
  rw [hdd] at h
  have h' : (l1 ++ dtsSfx) ++ (dtsSfx ++ l2) = v ++ dtsSfx := by
    simpa [List.append_assoc] using h
  have hts_dts : tsPat <:+: dtsSfx := ⟨['.', 'd'], [], rfl⟩
  rcases List.append_eq_append_iff.mp h' with ⟨a', ha, _⟩ | ⟨c', hc, hd⟩
  · exact hts_dts.trans ⟨l1, a', by rw [ha]⟩
  · have hc0 : c' = [] := by
      have hlen := congrArg List.length hd
      simp only [List.length_append] at hlen
      have : c'.length = 0 := by omega
      exact List.length_eq_zero.mp this
    subst hc0
    simp only [List.append_nil] at hc
    exact hts_dts.trans ⟨l1, [], by rw [← hc]; simp⟩

/-- `".ts"` occurring nowhere rules out the duplicated pattern. -/
theorem not_contains_dd_of_not_ts {u : List Char} (hts : containsL tsPat u = false) :
    containsL ddPat u = false := by
  rw [containsL_eq_false_iff] at hts ⊢
  intro hinf
  exact hts ((show tsPat <:+: ddPat from ⟨['.', 'd'], dtsSfx, rfl⟩).trans hinf)

/-- `".ts"` occurring nowhere also means the string does not end in `".d.ts"`. -/
theorem not_endsDts_of_not_ts {u : List Char} (hts : containsL tsPat u = false) :
    endsDtsL u = false := by
  rw [containsL_eq_false_iff] at hts
  rw [endsDtsL]
  cases hsuf : dtsSfx.isSuffixOf u with
  | false => rfl
  | true =>
    exfalso
    apply hts
    have hs := List.isSuffixOf_iff_suffix.mp hsuf
    exact (show tsPat <:+: dtsSfx from ⟨['.', 'd'], [], rfl⟩).trans hs.isInfix

/-- A query marker survives the collapse loop (`'?'` does not occur in the
replaced pattern). -/
theorem contains_q_collapseDd {u : List Char} (h : u.contains '?' = true) :
    (collapseDd u).contains '?' = true := by
  have h' : '?' ∈ u := by simpa using h
  simpa using mem_collapseDdAux_of_not_mem (x := '?') (by decide) u.length u h'

theorem normStep_of_contains_q {v : List Char} (h : v.contains '?' = true) :
    normStep v = v := by
  rw [normStep]
  by_cases h1 : endsDtsL v = true
  · rw [if_pos h1]
  · rw [if_neg h1, if_pos h]

/-- The output of `normalizeTypeUrlL` never contains `".d.ts.d.ts"`. -/
theorem normalizeTypeUrlL_no_dd (u : List Char) :
    containsL ddPat (normalizeTypeUrlL u) = false := by
  rw [normalizeTypeUrlL, normStep]
  have hv := containsL_collapseDd u
  by_cases h1 : endsDtsL (collapseDd u) = true
  · rw [if_pos h1]; exact hv
  · rw [if_neg h1]
    by_cases h2 : (collapseDd u).contains '?' = true
    · rw [if_pos h2]; exact hv
    · rw [if_neg h2]
      by_cases h3 : (endsSlashL (collapseDd u) || containsL tsPat (collapseDd u)
          || containsL jsPat (collapseDd u)) = true
      · rw [if_pos h3]; exact hv
      · rw [if_neg h3]
        have hts : containsL tsPat (collapseDd u) = false := by
          rcases Bool.or_eq_false_iff.mp (Bool.eq_false_iff.mpr h3) with ⟨h', _⟩
          exact (Bool.or_eq_false_iff.mp h').2
        exact not_contains_dd_append hts

/-- Claim C7 (amended).  For every URL: (1) the result contains no
duplicated `".d.ts.d.ts"` pattern; (2) a query-bearing URL receives no
modification beyond the suffix-collapse loop (which runs before the query
check); (3) a URL containing neither `".ts"` nor `".js"` as a substring,
with no query and not ending in `"/"`, gains exactly one `".d.ts"`
suffix. -/
theorem C7_normalizeTypeUrl_contract (url : String) :
    containsL ddPat (normalizeTypeUrl url).data = false
    ∧ (url.data.contains '?' = true →
        normalizeTypeUrl url = ⟨collapseDd url.data⟩)
    ∧ (url.data.contains '?' = false → endsSlashL url.data = false →
        containsL tsPat url.data = false → containsL jsPat url.data = false →
        normalizeTypeUrl url = url ++ ".d.ts") := by
  refine ⟨normalizeTypeUrlL_no_dd url.data, ?_, ?_⟩
  · intro hq
    show (⟨normalizeTypeUrlL url.data⟩ : String) = _
    rw [normalizeTypeUrlL, normStep_of_contains_q (contains_q_collapseDd hq)]
  · intro hq hsl hts hjs
    have hdd : containsL ddPat url.data = false := not_contains_dd_of_not_ts hts
    have hcol : collapseDd url.data = url.data := collapseDd_of_not_contains hdd
    show (⟨normalizeTypeUrlL url.data⟩ : String) = _
    rw [normalizeTypeUrlL, hcol, normStep,
      if_neg (by rw [not_endsDts_of_not_ts hts]; exact Bool.false_ne_true),
      if_neg (by rw [hq]; exact Bool.false_ne_true),
      if_neg (by rw [hsl, hts, hjs]; simp)]
    apply String.ext
    simp only [String.data_append]
    rfl

/-- Claim C7, counterexample to the claim as stated: a query-bearing URL
that contains the duplicated pattern is modified by `normalizeTypeUrl`
(the collapse loop runs before the query check), contradicting "returns a
URL containing a query string unmodified". -/
theorem C7_counterexample :
    ("a.d.ts.d.ts?x").data.contains '?' = true
    ∧ normalizeTypeUrl "a.d.ts.d.ts?x" ≠ "a.d.ts.d.ts?x"
    ∧ normalizeTypeUrl "a.d.ts.d.ts?x" = "a.d.ts?x" := by
  refine ⟨by decide, by decide, by decide⟩

/-- Witness for the amended claim C7 at concrete inputs. -/
theorem C7_witness :
    normalizeTypeUrl "https://a?b" = ⟨collapseDd ("https://a?b").data⟩
    ∧ normalizeTypeUrl "https://esm.sh/lodash" = "https://esm.sh/lodash" ++ ".d.ts" :=
  ⟨(C7_normalizeTypeUrl_contract "https://a?b").2.1 (by decide),
   (C7_normalizeTypeUrl_contract "https://esm.sh/lodash").2.2
     (by decide) (by decide) (by decide) (by decide)⟩

/-- `normStep` either returns its argument, or appends `".d.ts"` to an
argument containing no `".ts"` substring. -/
theorem normStep_cases (v : List Char) :
    normStep v = v ∨ (normStep v = v ++ dtsSfx ∧ containsL tsPat v = false) := by
  rw [normStep]
  split_ifs with h1 h2 h3
  · exact Or.inl rfl
  · exact Or.inl rfl
  · exact Or.inl rfl
  · refine Or.inr ⟨rfl, ?_⟩
    rcases Bool.or_eq_false_iff.mp (Bool.eq_false_iff.mpr h3) with ⟨h', _⟩
    exact (Bool.or_eq_false_iff.mp h').2

/-- Claim C10: `normalizeTypeUrl` is idempotent. -/
theorem C10_normalizeTypeUrl_idempotent (url : String) :
    normalizeTypeUrl (normalizeTypeUrl url) = normalizeTypeUrl url := by
  show (⟨normalizeTypeUrlL (normalizeTypeUrlL url.data)⟩ : String) = _
  congr 1
  simp only [normalizeTypeUrlL]
  set v := collapseDd url.data with hvdef
  have hv : containsL ddPat v = false := containsL_collapseDd url.data
  rcases normStep_cases v with h | ⟨h, hts⟩
  · rw [h, collapseDd_of_not_contains hv, h]
  · rw [h, collapseDd_of_not_contains (not_contains_dd_append hts),
      normStep, if_pos (by
        rw [endsDtsL]
        exact List.isSuffixOf_iff_suffix.mpr (List.suffix_append v dtsSfx))]

/-! ### External-world model

All I/O primitives of the pipeline are collected in one environment
record.  Fallible JS primitives (network `fetch`, `new URL`) are modelled
as `Except String _`, the `.error` case standing for a thrown exception.
`ts.preProcessFile` and the length of `JSON.stringify` of a cache record
are opaque library functions, hence environment parameters.  `Date.now()`
is modelled as a single per-run timestamp `now`. -/

/-- One network I/O event, used to state at-most-once fetch properties. -/
inductive Ev where
  /-- `fetch(url)` (GET) issued by `processFile`. -/
  | get : String → Ev
  /-- `fetch("https://esm.sh/" + specifier, {method:"HEAD"})` issued by
  `fetchEntry`. -/
  | headPkg : String → Ev
  /-- `fetch(url, {method:"HEAD"})` issued by `TypeCache.validateETag`. -/
  | headETag : String → Ev
deriving DecidableEq

/-- The visited-set marker guarding an event's fetch, when there is one
(`processFile` guards by the normalized URL, `fetchEntry` by
`"package:" + specifier`; revalidation probes are not guarded). -/
def Ev.marker : Ev → Option String
  | .get u => some u
  | .headPkg s => some ("package:" ++ s)
  | .headETag _ => none

/-- Response of a GET `fetch`: `ok` status flag, body text, `ETag` header. -/
structure FetchResp where
  ok : Bool
  body : String
  etag : Option String
deriving DecidableEq

/-- Response of a HEAD `fetch`: `ok` flag, `X-TypeScript-Types` header,
`ETag` header. -/
structure HeadResp where
  ok : Bool
  typesHeader : Option String
  etag : Option String
deriving DecidableEq

/-- The part of `ts.preProcessFile`'s result used by `processFile`. -/
structure PreInfo where
  referencedFiles : List String
  importedFiles : List String

/-- The decoded shape of a persisted record (`CachedTypeInfo` in source). -/
structure CachedTypeInfo where
  content : String
  timestamp : Nat
  version : Option String
  etag : Option String
deriving DecidableEq

/-- The environment: every external collaborator of the pipeline. -/
structure Env where
  /-- `Date.now()`. -/
  now : Nat
  /-- `JSON.stringify(cacheRecord).length` for a decodable record. -/
  encLen : CachedTypeInfo → Nat
  /-- GET `fetch`; `.error` is a thrown network exception. -/
  fetchGet : String → Except String FetchResp
  /-- HEAD `fetch`; `.error` is a thrown network exception. -/
  fetchHead : String → Except String HeadResp
  /-- `new URL(rel, base).toString()`; `.error` is a thrown `TypeError`. -/
  resolveURL : String → String → Except String String
  /-- `ts.preProcessFile(text, true, true)`. -/
  preProcess : String → PreInfo

/-! ### `TypeCache` (class embedded in src/README.md)

`localStorage` is modelled as an insertion-ordered association list
(`localStorage.key(i)` enumerates in that order; `setItem` of an existing
key updates in place, of a new key appends).  A stored string either
decodes by `JSON.parse` into a record (`StoredVal.good`) or makes it throw
(`StoredVal.bad n`, `n` the stored string's length; stored strings are
assumed non-empty, so the `if (value)` truthiness guards in the source
always pass). -/

/-- A raw `localStorage` value: decodable record, or undecodable blob of a
given length. -/
inductive StoredVal where
  | good : CachedTypeInfo → StoredVal
  | bad : Nat → StoredVal
deriving DecidableEq

abbrev Store := List (String × StoredVal)

/-- `localStorage.getItem` (first binding of the key; keys are unique by
construction of `setItem`). -/
def lookupStore : Store → String → Option StoredVal
  | [], _ => none
  | (k, v) :: t, key => if k = key then some v else lookupStore t key

/-- `localStorage.setItem`: update in place, or append a new key. -/
def setItem (key : String) (v : StoredVal) : Store → Store
  | [] => [(key, v)]
  | (k, w) :: t => if k = key then (key, v) :: t else (k, w) :: setItem key v t

/-- `localStorage.removeItem`. -/
def removeItem (key : String) (st : Store) : Store :=
  st.filter (fun e => e.1 != key)

/-- `TypeCache.CACHE_PREFIX = "ts-types-cache:"`. -/
def cachePfx : String := "ts-types-cache:"

/-- `TypeCache.CACHE_EXPIRY = 24 * 60 * 60 * 1000`. -/
def CACHE_EXPIRY : Nat := 24 * 60 * 60 * 1000

/-- `TypeCache.MAX_CACHE_SIZE = 50 * 1024 * 1024`. -/
def MAX_CACHE_SIZE : Nat := 50 * 1024 * 1024

/-- The character sanitization of `getCacheKey`:
`url.replace(/[^a-zA-Z0-9]/g, "_")` (the regex classes are ASCII). -/
def safeChar (c : Char) : Char := if c.isAlpha || c.isDigit then c else '_'

/-- `TypeCache.getCacheKey`. -/
def cacheKey (url : String) : String := cachePfx ++ ⟨url.data.map safeChar⟩

/-- `key.startsWith(TypeCache.CACHE_PREFIX)`. -/
def hasPfx (key : String) : Bool := cachePfx.data.isPrefixOf key.data

/-- The length of the raw stored string for a value (for `.good` records
this is the `JSON.stringify` length, an environment parameter). -/
def valLen (env : Env) : StoredVal → Nat
  | .good info => env.encLen info
  | .bad n => n

/-- `TypeCache.getCurrentCacheSize`: total length of all values stored
under the cache namespace. -/
def currentCacheSize (env : Env) : Store → Nat
  | [] => 0
  | (k, v) :: t => (if hasPfx k then valLen env v else 0) + currentCacheSize env t

/-- The first loop of `TypeCache.cleanupOldEntries`: iterate
`localStorage.key(i)` with `i` increasing, collecting `(key, timestamp)`
for decodable namespaced entries and deleting undecodable ones in place.
Deleting during index iteration skips the element that slides into the
deleted slot, exactly as in the source (`localStorage.removeItem` inside a
`for (i...)` loop).  Fuel-indexed; fuel `st.length` is sufficient since
every step increases `i` and never lengthens the store. -/
def sweepClean : Nat → Nat → Store → Store × List (String × Nat)
  | 0, _, st => (st, [])
  | f + 1, i, st =>
    match st.get? i with
    | none => (st, [])
    | some (k, v) =>
      if hasPfx k then
        match v with
        | .good info =>
          let r := sweepClean f (i + 1) st
          (r.1, (k, info.timestamp) :: r.2)
        | .bad _ => sweepClean f (i + 1) (st.eraseIdx i)
      else sweepClean f (i + 1) st

/-- Stable ascending insertion by timestamp (`entries.sort((a, b) =>
a.timestamp - b.timestamp)`; JS `Array.prototype.sort` is stable). -/
def insertByTs (e : String × Nat) : List (String × Nat) → List (String × Nat)
  | [] => [e]
  | h :: t => if e.2 < h.2 then e :: h :: t else h :: insertByTs e t

/-- Stable insertion sort by timestamp: processing left to right and
inserting after existing equal timestamps reproduces the stable JS sort. -/
def sortByTs (l : List (String × Nat)) : List (String × Nat) :=
  l.foldl (fun acc e => insertByTs e acc) []

/-- Sequential `localStorage.removeItem` over a list of keys. -/
def removeKeys (ks : List String) (st : Store) : Store :=
  ks.foldl (fun s k => removeItem k s) st

/-- `Math.ceil(n * 0.3)`.  For every entry count `n` arising here the
IEEE-754 product `n * 0.3` lies in `(3n/10 - 1, 3n/10]` (the double
nearest `0.3` is slightly below `3/10`, and rounding the product cannot
overshoot the exact value past an integer), so the ceiling equals
`⌈3n/10⌉ = (3n + 9) / 10` in exact arithmetic. -/
def ceil30pct (n : Nat) : Nat := (3 * n + 9) / 10

/-- `TypeCache.cleanupOldEntries`: sweep (dropping undecodable entries),
sort the collected entries by timestamp ascending, delete the oldest 30%
(rounded up). -/
def cleanupOldEntries (st : Store) : Store :=
  let r := sweepClean st.length 0 st
  let sorted := sortByTs r.2
  removeKeys ((sorted.take (ceil30pct r.2.length)).map Prod.fst) r.1

/-- Process-lifetime cache state: the `localStorage` contents plus the
instance hit/miss counters. -/
structure CacheSt where
  store : Store
  hitCount : Nat
  missCount : Nat
deriving DecidableEq

/-- `TypeCache.validateETag`: HEAD-probe the URL and compare the `etag`
header with the stored tag; any thrown error is caught and treated as
"still valid" (returns `true`). -/
def validateETag (env : Env) (url : String) (cachedETag : String) : Bool × List Ev :=
  match env.fetchHead url with
  | .error _ => (true, [.headETag url])
  | .ok r => (decide (r.etag = some cachedETag), [.headETag url])

/-- `TypeCache.get`: lookup, expiry check (removing expired entries),
optional ETag revalidation (removing invalidated entries), with every
thrown error caught and counted as a miss.  An undecodable record makes
`JSON.parse` throw, which the surrounding catch turns into a miss — the
record itself is left in place.  (JS computes `Date.now() - timestamp`,
negative for future timestamps and hence not above the expiry bound; Nat
subtraction truncates to `0` with the same outcome.) -/
def TypeCache.get (env : Env) (cs : CacheSt) (url : String) :
    CacheSt × List Ev × Option String :=
  let key := cacheKey url
  match lookupStore cs.store key with
  | none => ({ cs with missCount := cs.missCount + 1 }, [], none)
  | some (.bad _) => ({ cs with missCount := cs.missCount + 1 }, [], none)
  | some (.good info) =>
    if env.now - info.timestamp > CACHE_EXPIRY then
      ({ cs with store := removeItem key cs.store, missCount := cs.missCount + 1 }, [], none)
    else
      match info.etag with
      | none => ({ cs with hitCount := cs.hitCount + 1 }, [], some info.content)
      | some tag =>
        let r := validateETag env url tag
        if r.1 then ({ cs with hitCount := cs.hitCount + 1 }, r.2, some info.content)
        else ({ cs with store := removeItem key cs.store,
                        missCount := cs.missCount + 1 }, r.2, none)

/-- `TypeCache.set`: `ensureCacheSpace` (evicting via `cleanupOldEntries`
only when the pre-existing namespaced total already exceeds the budget),
then store the record with the current timestamp.  Storage-layer write
failures (quota) are swallowed in the source and not modelled. -/
def TypeCache.set (env : Env) (cs : CacheSt) (url content : String)
    (etag version : Option String) : CacheSt :=
  let store1 :=
    if currentCacheSize env cs.store > MAX_CACHE_SIZE then cleanupOldEntries cs.store
    else cs.store
  { cs with store := setItem (cacheKey url) (.good ⟨content, env.now, version, etag⟩) store1 }

/-! ### Sortedness facts about `sortByTs` -/

theorem insertByTs_perm (e : String × Nat) :
    ∀ l, List.Perm (insertByTs e l) (e :: l) := by
  intro l
  induction l with
  | nil => exact List.Perm.refl _
  | cons h t ih =>
    rw [insertByTs]
    by_cases hlt : e.2 < h.2
    · rw [if_pos hlt]
    · rw [if_neg hlt]
      exact (List.Perm.cons h ih).trans (List.Perm.swap e h t)

theorem insertByTs_sorted (e : String × Nat) :
    ∀ {l}, List.Sorted (fun a b : String × Nat => a.2 ≤ b.2) l →
      List.Sorted (fun a b : String × Nat => a.2 ≤ b.2) (insertByTs e l) := by
  intro l
  induction l with
  | nil => intro _; simp [insertByTs]
  | cons h t ih =>
    intro hs
    rw [List.sorted_cons] at hs
    rw [insertByTs]
    by_cases hlt : e.2 < h.2
    · rw [if_pos hlt, List.sorted_cons]
      refine ⟨?_, List.sorted_cons.mpr hs⟩
      intro b hb
      rcases List.mem_cons.mp hb with rfl | hb
      · omega
      · have := hs.1 b hb
        omega
    · rw [if_neg hlt, List.sorted_cons]
      refine ⟨?_, ih hs.2⟩
      intro b hb
      have hb' : b ∈ e :: t := (insertByTs_perm e t).mem_iff.mp hb
      rcases List.mem_cons.mp hb' with rfl | hb'
      · omega
      · exact hs.1 b hb'

theorem sortByTs_perm (l : List (String × Nat)) : List.Perm (sortByTs l) l := by
  have key : ∀ (l acc : List (String × Nat)),
      List.Perm (l.foldl (fun acc e => insertByTs e acc) acc) (acc ++ l) := by
    intro l
    induction l with
    | nil => intro acc; simp
    | cons a t ih =>
      intro acc
      have h1 := ih (insertByTs a acc)
      have h2 : List.Perm (insertByTs a acc ++ t) ((a :: acc) ++ t) :=
        (insertByTs_perm a acc).append_right t
      have h3 : List.Perm ((a :: acc) ++ t) (acc ++ a :: t) := by
        simpa using List.perm_middle.symm
      exact (h1.trans h2).trans h3
  simpa using key l []

theorem sortByTs_sorted (l : List (String × Nat)) :
    List.Sorted (fun a b : String × Nat => a.2 ≤ b.2) (sortByTs l) := by
  have key : ∀ (l acc : List (String × Nat)),
      List.Sorted (fun a b : String × Nat => a.2 ≤ b.2) acc →
      List.Sorted (fun a b : String × Nat => a.2 ≤ b.2)
        (l.foldl (fun acc e => insertByTs e acc) acc) := by
    intro l
    induction l with
    | nil => intro acc h; exact h
    | cons a t ih => intro acc h; exact ih _ (insertByTs_sorted a h)
  exact key l [] (by simp)

/-- In a timestamp-sorted list, every element of the first `k` positions
has a timestamp no larger than every later element. -/
theorem sorted_take_le_drop {s : List (String × Nat)} (k : Nat)
    (hs : List.Sorted (fun a b : String × Nat => a.2 ≤ b.2) s) :
    ∀ a ∈ s.take k, ∀ b ∈ s.drop k, a.2 ≤ b.2 := by
  have hsplit : List.Sorted (fun a b : String × Nat => a.2 ≤ b.2) (s.take k ++ s.drop k) := by
    rw [List.take_append_drop]; exact hs
  exact (List.pairwise_append.mp hsplit).2.2

/-! ### Claims C4, C5, C6 -/

/-- A concrete environment in which every record serializes to exactly the
cache budget and all network calls throw. -/
def env50 : Env where
  now := 0
  encLen := fun _ => MAX_CACHE_SIZE
  fetchGet := fun _ => .error "offline"
  fetchHead := fun _ => .error "offline"
  resolveURL := fun _ _ => .error "invalid URL"
  preProcess := fun _ => ⟨[], []⟩

/-- A cache holding one namespaced decodable entry. -/
def csA : CacheSt := ⟨[(cacheKey "a", .good ⟨"x", 5, none, none⟩)], 0, 0⟩

/-- A cache holding two namespaced decodable entries (over budget under
`env50`). -/
def csBig : CacheSt :=
  ⟨[(cacheKey "a", .good ⟨"x", 5, none, none⟩), (cacheKey "c", .good ⟨"z", 9, none, none⟩)], 0, 0⟩

/-- Claim C4 (amended).  `set` evicts only when the pre-existing namespaced
total already exceeds the 50MB budget (not when the incoming write would
cross it); when it does evict, it synchronously removes — before the
write — the oldest `⌈0.3·n⌉` of the `n` decodable namespaced entries seen
by the sweep (which also drops undecodable entries), oldest-by-timestamp
first. -/
theorem C4_eviction_on_set (env : Env) (cs : CacheSt) (url content : String)
    (etag version : Option String) (st : Store) :
    (currentCacheSize env cs.store ≤ MAX_CACHE_SIZE →
      (TypeCache.set env cs url content etag version).store
        = setItem (cacheKey url) (.good ⟨content, env.now, version, etag⟩) cs.store)
    ∧ (currentCacheSize env cs.store > MAX_CACHE_SIZE →
      (TypeCache.set env cs url content etag version).store
        = setItem (cacheKey url) (.good ⟨content, env.now, version, etag⟩)
            (cleanupOldEntries cs.store))
    ∧ cleanupOldEntries st
        = removeKeys
            ((List.take (ceil30pct (sweepClean st.length 0 st).2.length)
              (sortByTs (sweepClean st.length 0 st).2)).map Prod.fst)
            (sweepClean st.length 0 st).1
    ∧ (sortByTs (sweepClean st.length 0 st).2).length = (sweepClean st.length 0 st).2.length
    ∧ ∀ a ∈ List.take (ceil30pct (sweepClean st.length 0 st).2.length)
          (sortByTs (sweepClean st.length 0 st).2),
        ∀ b ∈ List.drop (ceil30pct (sweepClean st.length 0 st).2.length)
          (sortByTs (sweepClean st.length 0 st).2),
          a.2 ≤ b.2 := by
  refine ⟨?_, ?_, rfl, (sortByTs_perm _).length_eq, ?_⟩
  · intro h
    rw [TypeCache.set, if_neg (by omega)]
  · intro h
    rw [TypeCache.set, if_pos h]
  · exact sorted_take_le_drop _ (sortByTs_sorted _)

/-- Claim C4, counterexample to the claim as stated: a `set` whose write
pushes the total over the budget (pre-existing total exactly at the
budget) evicts nothing — eviction triggers only when the pre-existing
total already exceeds the budget. -/
theorem C4_counterexample :
    currentCacheSize env50 csA.store = MAX_CACHE_SIZE
    ∧ currentCacheSize env50 csA.store
        + env50.encLen ⟨"y", env50.now, none, none⟩ > MAX_CACHE_SIZE
    ∧ (TypeCache.set env50 csA "b" "y" none none).store
        = [(cacheKey "a", .good ⟨"x", 5, none, none⟩),
           (cacheKey "b", .good ⟨"y", 0, none, none⟩)] := by
  refine ⟨by decide, by decide, by decide⟩

/-- Witness for the amended claim C4 at concrete inputs (one `set` under
budget, one over budget). -/
theorem C4_witness :
    ((TypeCache.set env50 csA "b" "y" none none).store
      = setItem (cacheKey "b") (.good ⟨"y", env50.now, none, none⟩) csA.store)
    ∧ ((TypeCache.set env50 csBig "b" "y" none none).store
      = setItem (cacheKey "b") (.good ⟨"y", env50.now, none, none⟩)
          (cleanupOldEntries csBig.store)) :=
  ⟨(C4_eviction_on_set env50 csA "b" "y" none none []).1 (by decide),
   (C4_eviction_on_set env50 csBig "b" "y" none none []).2.1 (by decide)⟩

/-- Claim C5 (amended).  A key whose persisted record cannot be decoded is
reported as a miss with no error surfaced, but the malformed record is
left in storage (`JSON.parse` throws, the catch only counts a miss;
deletion of malformed records happens only inside `cleanupOldEntries`). -/
theorem C5_malformed_get_is_miss (env : Env) (cs : CacheSt) (url : String) (n : Nat)
    (h : lookupStore cs.store (cacheKey url) = some (.bad n)) :
    TypeCache.get env cs url = ({ cs with missCount := cs.missCount + 1 }, [], none) := by
  rw [TypeCache.get]
  simp only [h]

/-- A cache holding one namespaced undecodable entry. -/
def csM : CacheSt := ⟨[(cacheKey "u", .bad 7)], 0, 0⟩

/-- Claim C5, counterexample to the claim as stated: after `get` discovers
the malformed record, the record is still in storage — `get` does not
delete it. -/
theorem C5_counterexample :
    lookupStore csM.store (cacheKey "u") = some (.bad 7)
    ∧ (TypeCache.get env50 csM "u").2.2 = none
    ∧ lookupStore (TypeCache.get env50 csM "u").1.store (cacheKey "u") = some (.bad 7) := by
  refine ⟨by decide, by decide, by decide⟩

/-- Witness for the amended claim C5 at a concrete input. -/
theorem C5_witness :
    TypeCache.get env50 csM "u" = ({ csM with missCount := csM.missCount + 1 }, [], none) :=
  C5_malformed_get_is_miss env50 csM "u" 7 (by decide)

/-- Claim C6 (amended).  For a fresh cached entry carrying a revalidation
tag: a probe that throws is treated fail-open (content returned, entry
kept); a probe that completes with the stored tag returns the content; a
probe that completes with any other `etag` header value — a different tag
or no tag at all — invalidates the entry. -/
theorem C6_revalidation_fail_open (env : Env) (cs : CacheSt) (url : String)
    (info : CachedTypeInfo) (tag : String)
    (hlook : lookupStore cs.store (cacheKey url) = some (.good info))
    (hfresh : ¬ env.now - info.timestamp > CACHE_EXPIRY)
    (htag : info.etag = some tag) :
    (∀ e, env.fetchHead url = .error e →
      TypeCache.get env cs url
        = ({ cs with hitCount := cs.hitCount + 1 }, [.headETag url], some info.content))
    ∧ (∀ r, env.fetchHead url = .ok r → r.etag = some tag →
      TypeCache.get env cs url
        = ({ cs with hitCount := cs.hitCount + 1 }, [.headETag url], some info.content))
    ∧ (∀ r, env.fetchHead url = .ok r → r.etag ≠ some tag →
      TypeCache.get env cs url
        = ({ cs with store := removeItem (cacheKey url) cs.store,
                     missCount := cs.missCount + 1 }, [.headETag url], none)) := by
  refine ⟨?_, ?_, ?_⟩
  · intro e he
    rw [TypeCache.get]
    simp only [hlook, if_neg hfresh, htag, validateETag, he]
    simp
  · intro r hr hre
    rw [TypeCache.get]
    simp only [hlook, if_neg hfresh, htag, validateETag, hr, hre]
    simp
  · intro r hr hre
    rw [TypeCache.get]
    simp only [hlook, if_neg hfresh, htag, validateETag, hr]
    simp [hre]

/-- An environment whose HEAD probe completes but reports no `etag`
header. -/
def envHeadNoTag : Env where
  now := 0
  encLen := fun _ => 0
  fetchGet := fun _ => .error "offline"
  fetchHead := fun _ => .ok ⟨true, none, none⟩
  resolveURL := fun _ _ => .error "invalid URL"
  preProcess := fun _ => ⟨[], []⟩

/-- A cache holding one fresh namespaced entry carrying an ETag. -/
def csE : CacheSt := ⟨[(cacheKey "u", .good ⟨"C", 0, none, some "abc"⟩)], 0, 0⟩

/-- Claim C6, counterexample to the claim as stated: a revalidation probe
that completes but reports no tag at all (rather than a different tag)
still invalidates the entry — `null === storedTag` is false in the
source's comparison. -/
theorem C6_counterexample :
    envHeadNoTag.fetchHead "u" = .ok ⟨true, none, none⟩
    ∧ (TypeCache.get envHeadNoTag csE "u").2.2 = none
    ∧ lookupStore (TypeCache.get envHeadNoTag csE "u").1.store (cacheKey "u") = none := by
  refine ⟨rfl, by decide, by decide⟩

/-- Witness for the amended claim C6 at concrete inputs (a throwing probe
and a completed no-tag probe). -/
theorem C6_witness :
    TypeCache.get env50 csE "u"
      = ({ csE with hitCount := csE.hitCount + 1 }, [.headETag "u"], some "C")
    ∧ TypeCache.get envHeadNoTag csE "u"
      = ({ csE with store := removeItem (cacheKey "u") csE.store,
                    missCount := csE.missCount + 1 }, [.headETag "u"], none) :=
  ⟨(C6_revalidation_fail_open env50 csE "u" ⟨"C", 0, none, some "abc"⟩ "abc"
      (by decide) (by decide) rfl).1 "offline" rfl,
   (C6_revalidation_fail_open envHeadNoTag csE "u" ⟨"C", 0, none, some "abc"⟩ "abc"
      (by decide) (by decide) rfl).2.2 ⟨true, none, none⟩ rfl (by decide)⟩

/-! ### A small backtracking regex engine

The import-extraction regexes of `IntelliSenseManager` are sequences of
literals, greedy character-class quantifiers and single capture groups of
the form `([class]+)`.  The engine below reproduces JS regex semantics for
exactly that fragment: leftmost match, greedy quantifiers with
backtracking (all candidate remainders are enumerated longest-first, and
the first complete match wins), and a `lastIndex`-style exec loop that
resumes after each match. -/

/-- One regex atom over a character class (given as a predicate). -/
inductive RItem where
  /-- a single character of the class -/
  | cls : (Char → Bool) → RItem
  /-- greedy `*` over the class -/
  | star : (Char → Bool) → RItem
  /-- greedy `+` over the class -/
  | plus : (Char → Bool) → RItem

/-- A pattern segment: a plain atom, or a capture group `([class]+)`. -/
inductive RSeg where
  | item : RItem → RSeg
  | cap : (Char → Bool) → RSeg

/-- Remainders of `s` after consuming `k, k-1, …, 0` characters (the
greedy, longest-first backtracking order). -/
def dropsDesc (s : List Char) : Nat → List (List Char)
  | 0 => [s]
  | k + 1 => s.drop (k + 1) :: dropsDesc s k

/-- All remainders an atom can leave, in backtracking preference order. -/
def itemRems : RItem → List Char → List (List Char)
  | .cls _, [] => []
  | .cls p, c :: t => if p c then [t] else []
  | .star p, s => dropsDesc s (s.takeWhile p).length
  | .plus p, s => (dropsDesc s (s.takeWhile p).length).dropLast

/-- Capture candidates (text consumed, remainder) for `([class]+)`,
longest-first, minimum one character. -/
def capsDesc (s : List Char) : Nat → List (String × List Char)
  | 0 => []
  | k + 1 => (⟨s.take (k + 1)⟩, s.drop (k + 1)) :: capsDesc s k

/-- All full matches of a segment sequence anchored at the start of `s`,
in backtracking preference order, each with its captured groups and the
remainder after the match. -/
def segsMatch : List RSeg → List Char → List (List String × List Char)
  | [], s => [([], s)]
  | .item it :: rest, s => (itemRems it s).flatMap (fun s2 => segsMatch rest s2)
  | .cap p :: rest, s =>
    (capsDesc s (s.takeWhile p).length).flatMap
      (fun cr => (segsMatch rest cr.2).map (fun m => (cr.1 :: m.1, m.2)))

/-- `regex.exec` from the current position: scan forward for the leftmost
position with a match, return its captures and the remainder after the
matched text. -/
def execFrom (segs : List RSeg) : List Char → Option (List String × List Char)
  | [] => (segsMatch segs []).head?
  | c :: t =>
    match (segsMatch segs (c :: t)).head? with
    | some r => some r
    | none => execFrom segs t

/-- The `while ((match = pattern.exec(code)) !== null)` loop: collect the
capture lists of successive matches.  Fuel-indexed; every pattern used
here contains literal characters, so each match consumes at least one
character and fuel `length + 1` is sufficient. -/
def execAll (segs : List RSeg) : Nat → List Char → List (List String)
  | 0, _ => []
  | f + 1, s =>
    match execFrom segs s with
    | none => []
    | some r => r.1 :: execAll segs f r.2

/-- JS `\s` (the ASCII part; the Unicode whitespace code points never occur
in the inputs considered here). -/
def wsChar (c : Char) : Bool :=
  c = ' ' || c = '\t' || c = '\n' || c = '\r' || c = '\x0b' || c = '\x0c'

/-- JS `\w`. -/
def wordChar (c : Char) : Bool := c.isAlpha || c.isDigit || c = '_'

def lbraceChar : Char := Char.ofNat 123

def rbraceChar : Char := Char.ofNat 125

def squoteChar : Char := Char.ofNat 39

def dquoteChar : Char := Char.ofNat 34

/-- The class `['"]`. -/
def quoteChar (c : Char) : Bool := c = squoteChar || c = dquoteChar

/-- The class `[^'"]`. -/
def notQuoteChar (c : Char) : Bool := !(quoteChar c)

/-- The class `[\w\s{},*]`. -/
def importClauseChar (c : Char) : Bool :=
  wordChar c || wsChar c || c = lbraceChar || c = rbraceChar || c = ',' || c = '*'

/-- The class `[^}]`. -/
def notRBraceChar (c : Char) : Bool := !(c = rbraceChar)

/-- A literal character as a segment. -/
def lit (c : Char) : RSeg := .item (.cls (fun x => x = c))

/-- A literal word as a segment list. -/
def lits (s : List Char) : List RSeg := s.map lit

/-- `/import\s+[\w\s{},*]+\s+from\s+['"]([^'"]+)['"]/g`
(extractImports pattern 1). -/
def importFromPat : List RSeg :=
  lits ("import").data
    ++ [.item (.plus wsChar), .item (.plus importClauseChar), .item (.plus wsChar)]
    ++ lits ("from").data
    ++ [.item (.plus wsChar), .item (.cls quoteChar), .cap notQuoteChar,
        .item (.cls quoteChar)]

/-- `/import\s*\(\s*['"]([^'"]+)['"]\s*\)/g` (extractImports pattern 2). -/
def dynImportPat : List RSeg :=
  lits ("import").data
    ++ [.item (.star wsChar), lit '(', .item (.star wsChar),
        .item (.cls quoteChar), .cap notQuoteChar, .item (.cls quoteChar),
        .item (.star wsChar), lit ')']

/-- `/require\s*\(\s*['"]([^'"]+)['"]\s*\)/g` (extractImports pattern 3). -/
def requirePat : List RSeg :=
  lits ("require").data
    ++ [.item (.star wsChar), lit '(', .item (.star wsChar),
        .item (.cls quoteChar), .cap notQuoteChar, .item (.cls quoteChar),
        .item (.star wsChar), lit ')']

/-! ### `IntelliSenseManager.extractImports` (src/utils/bundler.ts 695-739) -/

def startsWithL (pat s : List Char) : Bool := pat.isPrefixOf s

/-- Split on `'/'`, JS `String.prototype.split("/")` semantics. -/
def splitOnSlashL : List Char → List (List Char)
  | [] => [[]]
  | c :: t =>
    let r := splitOnSlashL t
    if c = '/' then [] :: r
    else
      match r with
      | [] => [[c]]
      | h :: t2 => (c :: h) :: t2

/-- JS `Array.prototype.join("/")`. -/
def joinSlashL : List (List Char) → List Char
  | [] => []
  | [x] => x
  | x :: y :: t => x ++ '/' :: joinSlashL (y :: t)

/-- The deny-list `["fs", "path", "os", "crypto", "util", "events"]`. -/
def nodeBuiltins : List String := ["fs", "path", "os", "crypto", "util", "events"]

/-- The filter of `extractImports`: drop relative, rooted, `node:` and
deny-listed specifiers. -/
def keepSpecifier (m : String) : Bool :=
  !(startsWithL (".").data m.data) && !(startsWithL ("/").data m.data)
    && !(startsWithL ("node:").data m.data) && !(decide (m ∈ nodeBuiltins))

/-- Scoped specifiers collapse to `scope/name`, unscoped ones to the first
path segment. -/
def cleanModuleName (m : String) : String :=
  if startsWithL ("@").data m.data then ⟨joinSlashL ((splitOnSlashL m.data).take 2)⟩
  else ⟨(splitOnSlashL m.data).headD []⟩

/-- JS `Set.prototype.add`: insertion-ordered, first insertion wins. -/
def addUnique (l : List String) (x : String) : List String :=
  if x ∈ l then l else l ++ [x]

/-- `IntelliSenseManager.extractImports`: run the three patterns in order,
take each match's first capture group, filter, normalize, deduplicate. -/
def extractImports (code : String) : List String :=
  let cl := code.data
  let ms := execAll importFromPat (cl.length + 1) cl
         ++ execAll dynImportPat (cl.length + 1) cl
         ++ execAll requirePat (cl.length + 1) cl
  let names := ms.filterMap (fun caps => caps.head?)
  names.foldl
    (fun acc m => if keepSpecifier m then addUnique acc (cleanModuleName m) else acc) []

/-- The single-quote character as a one-character string. -/
def sq : String := ⟨[squoteChar]⟩

/-- The claim's source text
`import { Button } from '@vapor-ui/core'; import x from './local'; const y = require('lodash/fp');`
(braces and single quotes written via escapes/`sq`). -/
def c8src : String :=
  "import \x7b Button \x7d from " ++ sq ++ "@vapor-ui/core" ++ sq ++ "; import x from "
    ++ sq ++ "./local" ++ sq ++ "; const y = require(" ++ sq ++ "lodash/fp" ++ sq ++ ");"

/-- Claim C8: on the claim's source text, extraction yields exactly
`{"@vapor-ui/core", "lodash"}` — the relative specifier is stripped, the
scoped subpath keeps its two-segment name, the unscoped subpath collapses
to its first segment, and the result is deduplicated. -/
theorem C8_extractImports_exact :
    extractImports c8src = ["@vapor-ui/core", "lodash"] := by decide

/-! ### The dependency-graph walker (src/utils/typeFetcher.ts 70-219)

`fetchAndAddTypes` closes over Monaco's `typescriptDefaults` and the
process-wide `globalVFS`/`globalTypeCache`; the embedding collects all of
that mutable state in `St`.  The mutually recursive `processFile` /
`fetchEntry` pair (plus `processFile`'s two dependency loops) becomes one
fuel-indexed function `go` over a call-kind type `K`; out of fuel returns
with no effect, and every theorem quantifies over the fuel.  The
`Except String Unit` component is the thrown-exception channel: `.error`
leaves a `try` block exactly where the source would, and the source's
`catch` handlers turn it back into `.ok`. -/

/-- Association-list lookup for JS `Map`/object semantics (`String`
values). -/
def lookupS : List (String × String) → String → Option String
  | [], _ => none
  | (k, v) :: t, key => if k = key then some v else lookupS t key

/-- Association-list update preserving insertion order. -/
def setS (key v : String) : List (String × String) → List (String × String)
  | [] => [(key, v)]
  | (k, w) :: t => if k = key then (key, v) :: t else (k, w) :: setS key v t

/-- The mutable state visible to the walker: the virtual file system's
`files` map and `visited` set, Monaco's extra-lib registry, and the
persistent cache. -/
structure St where
  files : List (String × String)
  visited : List String
  extraLibs : List (String × String)
  cache : CacheSt
deriving DecidableEq

/-- Call kinds of the mutually recursive walker: `processFile`, the body
of `processFile` after the content was obtained, the reference loop,
the loop over imported files, and `fetchEntry`. -/
inductive K where
  | file : String → Option String → K
  | body : String → Option String → String → K
  | refs : List String → String → K
  | imps : List String → String → K
  | entry : String → K

/-- `defaults.addExtraLib` guarded by the content-dedup check
(`if (!existingLib || existingLib.content !== text)`). -/
def addExtraLibDedup (libs : List (String × String)) (path text : String) :
    List (String × String) :=
  match lookupS libs path with
  | some c => if c = text then libs else setS path text libs
  | none => setS path text libs

/-- Lines 111-145 of `processFile`: derive the virtual path, store the
content in the virtual file system, register it with Monaco (content
dedup), and opportunistically add the `@types` package mapping.  The
query-strip `replace(/\?.*$/, "")` is `takeWhile (· ≠ '?')` for inputs
without newline characters (URLs). -/
def registerText (st : St) (url : String) (pkg : Option String) (text : String) : St :=
  let virtualPath : String :=
    match pkg with
    | some p => "file:///node_modules/" ++ p ++ "/index.d.ts"
    | none =>
      let vp : String :=
        ⟨replaceFirstL 'h' ("ttps://esm.sh/").data ("file:///node_modules/").data url.data⟩
      if endsDtsL vp.data then vp
      else ⟨vp.data.takeWhile (fun c => !(c = '?')) ++ (".d.ts").data⟩
  let st1 : St := { st with files := setS virtualPath text st.files,
                            extraLibs := addExtraLibDedup st.extraLibs virtualPath text }
  match pkg with
  | some p =>
    if !(containsL ("/dist/").data virtualPath.data) then
      let packagePath := "file:///node_modules/@types/" ++ p ++ "/index.d.ts"
      { st1 with extraLibs := addExtraLibDedup st1.extraLibs packagePath text }
    else st1
  | none => st1

theorem registerText_visited (st : St) (url : String) (pkg : Option String) (text : String) :
    (registerText st url pkg text).visited = st.visited := by
  rw [registerText.eq_def]
  cases pkg with
  | none => rfl
  | some p =>
    dsimp only
    split
    · rfl
    · rfl

theorem registerText_cache (st : St) (url : String) (pkg : Option String) (text : String) :
    (registerText st url pkg text).cache = st.cache := by
  rw [registerText.eq_def]
  cases pkg with
  | none => rfl
  | some p =>
    dsimp only
    split
    · rfl
    · rfl

/-- The walker.  Each equation is a line-by-line translation of the
corresponding source function; recursive calls always use the predecessor
fuel. -/
def go (env : Env) : Nat → K → St → St × List Ev × Except String Unit
  | 0, _, st => (st, [], .ok ())
  | fuel + 1, K.file url0 pkg, st =>
    -- processFile, lines 79-181
    let url := normalizeTypeUrl url0
    if url ∈ st.visited then (st, [], .ok ())
    else
      let st1 : St := { st with visited := url :: st.visited }
      -- try { … } catch swallows every error below (line 178)
      let cg := TypeCache.get env st1.cache url
      let st2 : St := { st1 with cache := cg.1 }
      -- `if (!text)`: null or empty-string cache content triggers download
      let cachedText : Option String :=
        match cg.2.2 with
        | some t => if t = "" then none else some t
        | none => none
      match cachedText with
      | some text =>
        let r := go env fuel (K.body url pkg text) st2
        (r.1, cg.2.1 ++ r.2.1, .ok ())
      | none =>
        match env.fetchGet url with
        | .error _ => (st2, cg.2.1 ++ [.get url], .ok ())
        | .ok resp =>
          if !resp.ok then (st2, cg.2.1 ++ [.get url], .ok ())
          else
            let text := resp.body
            let st3 : St :=
              { st2 with cache := TypeCache.set env st2.cache url text resp.etag none }
            let r := go env fuel (K.body url pkg text) st3
            (r.1, cg.2.1 ++ [.get url] ++ r.2.1, .ok ())
  | fuel + 1, K.body url pkg text, st =>
    -- processFile, lines 111-177
    let st3 := registerText st url pkg text
    let info := env.preProcess text
    let r1 := go env fuel (K.refs info.referencedFiles url) st3
    match r1.2.2 with
    | .error e => (r1.1, r1.2.1, .error e)
    | .ok _ =>
      let r2 := go env fuel (K.imps info.importedFiles url) r1.1
      (r2.1, r1.2.1 ++ r2.2.1, r2.2.2)
  | fuel + 1, K.refs rs url, st =>
    -- processFile, lines 151-156
    match rs with
    | [] => (st, [], .ok ())
    | ref :: rest =>
      match env.resolveURL ref url with
      | .error e => (st, [], .error e)
      | .ok cu =>
        let r1 := go env fuel (K.file (normalizeTypeUrl cu) none) st
        match r1.2.2 with
        | .error e => (r1.1, r1.2.1, .error e)
        | .ok _ =>
          let r2 := go env fuel (K.refs rest url) r1.1
          (r2.1, r1.2.1 ++ r2.2.1, r2.2.2)
  | fuel + 1, K.imps is url, st =>
    -- processFile, lines 159-177
    match is with
    | [] => (st, [], .ok ())
    | imp :: rest =>
      if startsWithL (".").data imp.data then
        match env.resolveURL imp url with
        | .error e => (st, [], .error e)
        | .ok cu =>
          let r1 := go env fuel (K.file (normalizeTypeUrl cu) none) st
          match r1.2.2 with
          | .error e => (r1.1, r1.2.1, .error e)
          | .ok _ =>
            let r2 := go env fuel (K.imps rest url) r1.1
            (r2.1, r1.2.1 ++ r2.2.1, r2.2.2)
      else if !(imp.data.contains '/') then
        -- bare specifier: try { await fetchEntry(imp) } catch { warn }
        let r1 := go env fuel (K.entry imp) st
        let r2 := go env fuel (K.imps rest url) r1.1
        (r2.1, r1.2.1 ++ r2.2.1, r2.2.2)
      else
        go env fuel (K.imps rest url) st
  | fuel + 1, K.entry spec, st =>
    -- fetchEntry, lines 186-216
    if ("package:" ++ spec) ∈ st.visited then (st, [], .ok ())
    else
      let st1 : St := { st with visited := ("package:" ++ spec) :: st.visited }
      let baseUrl := "https://esm.sh/" ++ spec
      match env.fetchHead baseUrl with
      | .error _ => (st1, [.headPkg spec], .ok ())
      | .ok resp =>
        if !resp.ok then (st1, [.headPkg spec], .ok ())
        else
          match resp.typesHeader with
          | some h =>
            match env.resolveURL h baseUrl with
            | .error _ => (st1, [.headPkg spec], .ok ())
            | .ok typesUrl =>
              let r := go env fuel (K.file typesUrl (some spec)) st1
              (r.1, .headPkg spec :: r.2.1, .ok ())
          | none =>
            let r := go env fuel (K.file ("https://esm.sh/" ++ spec ++ "?dts") (some spec)) st1
            (r.1, .headPkg spec :: r.2.1, .ok ())

/-- `processFile(url, packageName?)`. -/
def processFile (env : Env) (fuel : Nat) (st : St) (url : String) (pkg : Option String) :
    St × List Ev × Except String Unit :=
  go env fuel (K.file url pkg) st

/-- `fetchEntry(specifier)`. -/
def fetchEntry (env : Env) (fuel : Nat) (st : St) (spec : String) :
    St × List Ev × Except String Unit :=
  go env fuel (K.entry spec) st

/-- `fetchAndAddTypes(packageSpecifier, monacoInstance)`: awaits
`fetchEntry(packageSpecifier)`. -/
def fetchAndAddTypes (env : Env) (fuel : Nat) (st : St) (spec : String) :
    St × List Ev × Except String Unit :=
  fetchEntry env fuel st spec

/-! ### The visited-once invariant -/

/-- Number of guarded network fetches for marker `t` in an event list
(the GET of `processFile` for a URL marker, the HEAD of `fetchEntry` for a
`package:` marker; revalidation probes carry no marker). -/
def cnt (t : String) (evs : List Ev) : Nat :=
  evs.countP (fun e => decide (Ev.marker e = some t))

theorem cnt_nil (t : String) : cnt t [] = 0 := rfl

theorem cnt_append (t : String) (e1 e2 : List Ev) :
    cnt t (e1 ++ e2) = cnt t e1 + cnt t e2 :=
  List.countP_append _ e1 e2

/-- The run invariant from state `a` to state `b` emitting `evs`:
the visited set grows monotonically; no event fires for an
already-visited marker; every marker fires at most once; and a marker
that fired is visited afterwards. -/
def SeqOK (a b : St) (evs : List Ev) : Prop :=
  (∀ x, x ∈ a.visited → x ∈ b.visited)
  ∧ ∀ t : String, (t ∈ a.visited → cnt t evs = 0) ∧ cnt t evs ≤ 1
      ∧ (1 ≤ cnt t evs → t ∈ b.visited)

theorem seqOK_refl (a : St) : SeqOK a a [] :=
  ⟨fun _ h => h, fun t => ⟨fun _ => rfl, by simp [cnt], by simp [cnt]⟩⟩

theorem seqOK_unmarked {a b : St} {evs : List Ev}
    (hmono : ∀ x, x ∈ a.visited → x ∈ b.visited)
    (hz : ∀ t, cnt t evs = 0) : SeqOK a b evs :=
  ⟨hmono, fun t => ⟨fun _ => hz t, by rw [hz t]; omega, by rw [hz t]; omega⟩⟩

theorem seqOK_trans {a b c : St} {e1 e2 : List Ev}
    (h1 : SeqOK a b e1) (h2 : SeqOK b c e2) : SeqOK a c (e1 ++ e2) := by
  obtain ⟨m1, p1⟩ := h1
  obtain ⟨m2, p2⟩ := h2
  refine ⟨fun x hx => m2 x (m1 x hx), fun t => ?_⟩
  obtain ⟨z1, le1, v1⟩ := p1 t
  obtain ⟨z2, le2, v2⟩ := p2 t
  rw [cnt_append]
  refine ⟨fun ha => ?_, ?_, fun hge => ?_⟩
  · rw [z1 ha, z2 (m1 t ha)]
  · by_cases h1c : 1 ≤ cnt t e1
    · rw [z2 (v1 h1c)]; omega
    · omega
  · by_cases h2c : 1 ≤ cnt t e2
    · exact v2 h2c
    · exact m2 t (v1 (by omega))

theorem seqOK_push {a b : St} {E : List Ev} {e : Ev} {m : String}
    (h : SeqOK a b E) (hz : ∀ t, cnt t E = 0)
    (hm : Ev.marker e = some m) (hna : m ∉ a.visited) (hb : m ∈ b.visited) :
    SeqOK a b (E ++ [e]) := by
  obtain ⟨mono, _⟩ := h
  refine ⟨mono, fun t => ?_⟩
  have hone : cnt t [e] = if m = t then 1 else 0 := by
    simp only [cnt, List.countP_cons, List.countP_nil, hm, Nat.zero_add]
    by_cases hmt : m = t
    · simp [hmt]
    · simp [hmt, Option.some_inj]
  rw [cnt_append, hz t, hone, Nat.zero_add]
  by_cases hmt : m = t
  · subst hmt
    simp only [if_pos rfl]
    exact ⟨fun ha => absurd ha hna, le_rfl, fun _ => hb⟩
  · simp only [if_neg hmt]
    exact ⟨fun _ => trivial, by omega, fun hc => absurd hc (by omega)⟩

theorem seqOK_single {a b : St} {e : Ev} {m : String}
    (hmono : ∀ x, x ∈ a.visited → x ∈ b.visited)
    (hm : Ev.marker e = some m) (hna : m ∉ a.visited) (hb : m ∈ b.visited) :
    SeqOK a b [e] :=
  seqOK_push (E := []) (seqOK_unmarked hmono fun _ => rfl) (fun _ => rfl) hm hna hb

/-- Cache reads emit only unmarked revalidation probes. -/
theorem cnt_cacheGet (env : Env) (cs : CacheSt) (url : String) (t : String) :
    cnt t (TypeCache.get env cs url).2.1 = 0 := by
  rw [TypeCache.get]
  cases hl : lookupStore cs.store (cacheKey url) with
  | none => simp [cnt]
  | some v =>
    cases v with
    | bad n => simp [cnt]
    | good info =>
      dsimp only
      by_cases he : env.now - info.timestamp > CACHE_EXPIRY
      · simp [he, cnt]
      · simp only [if_neg he]
        cases ht : info.etag with
        | none => simp [cnt]
        | some tag =>
          dsimp only
          cases hf : env.fetchHead url with
          | error e => simp [validateETag, hf, cnt, Ev.marker]
          | ok r =>
            simp only [validateETag, hf]
            split
            · simp [cnt, Ev.marker]
            · simp [cnt, Ev.marker]



set_option maxHeartbeats 1000000 in
theorem go_seqOK (env : Env) :
    ∀ fuel k st, SeqOK st (go env fuel k st).1 (go env fuel k st).2.1 := by
  intro fuel
  induction fuel with
  | zero =>
    intro k st
    simp only [go]
    exact seqOK_refl st
  | succ f ih =>
    intro k st
    cases k with
    | entry spec =>
      simp only [go]
      by_cases hv : ("package:" ++ spec) ∈ st.visited
      · simp only [if_pos hv]
        exact seqOK_refl st
      · simp only [if_neg hv]
        have hmono : ∀ x, x ∈ st.visited →
            x ∈ ({ st with visited := ("package:" ++ spec) :: st.visited } : St).visited :=
          fun x hx => List.mem_cons_of_mem _ hx
        have hmem : ("package:" ++ spec)
            ∈ ({ st with visited := ("package:" ++ spec) :: st.visited } : St).visited :=
          List.mem_cons_self _ _
        cases hf : env.fetchHead ("https://esm.sh/" ++ spec) with
        | error e =>
          simp only [hf]
          exact seqOK_single hmono rfl hv hmem
        | ok resp =>
          simp only [hf]
          cases hok : resp.ok with
          | false =>
            simp only [hok, Bool.not_false, if_true]
            exact seqOK_single hmono rfl hv hmem
          | true =>
            simp only [hok, Bool.not_true, Bool.false_eq_true, if_false]
            cases hth : resp.typesHeader with
            | some hdr =>
              simp only [hth]
              cases hres : env.resolveURL hdr ("https://esm.sh/" ++ spec) with
              | error e =>
                simp only [hres]
                exact seqOK_single hmono rfl hv hmem
              | ok typesUrl =>
                simp only [hres]
                exact seqOK_trans
                  (seqOK_single (e := Ev.headPkg spec) (m := "package:" ++ spec)
                    hmono rfl hv hmem)
                  (ih (K.file typesUrl (some spec)) _)
            | none =>
              simp only [hth]
              exact seqOK_trans
                (seqOK_single (e := Ev.headPkg spec) (m := "package:" ++ spec)
                  hmono rfl hv hmem)
                (ih (K.file ("https://esm.sh/" ++ spec ++ "?dts") (some spec)) _)
    | file url0 pkg =>
      simp only [go]
      by_cases hv : normalizeTypeUrl url0 ∈ st.visited
      · simp only [if_pos hv]
        exact seqOK_refl st
      · simp only [if_neg hv]
        have hcg : ∀ t2, cnt t2 (TypeCache.get env st.cache (normalizeTypeUrl url0)).2.1 = 0 :=
          fun t2 => cnt_cacheGet env st.cache (normalizeTypeUrl url0) t2
        cases hct : (TypeCache.get env st.cache (normalizeTypeUrl url0)).2.2 with
        | some t =>
          simp only [hct]
          by_cases ht : t = ""
          · simp only [if_pos ht]
            cases hfg : env.fetchGet (normalizeTypeUrl url0) with
            | error e =>
              simp only [hfg]
              refine seqOK_push ?_ hcg rfl hv (List.mem_cons_self _ _)
              exact seqOK_unmarked (fun x hx => List.mem_cons_of_mem _ hx) hcg
            | ok resp =>
              simp only [hfg]
              cases hok : resp.ok with
              | false =>
                simp only [hok, Bool.not_false, if_true]
                refine seqOK_push ?_ hcg rfl hv (List.mem_cons_self _ _)
                exact seqOK_unmarked (fun x hx => List.mem_cons_of_mem _ hx) hcg
              | true =>
                simp only [hok, Bool.not_true, Bool.false_eq_true, if_false]
                refine seqOK_trans (seqOK_push ?_ hcg rfl hv (List.mem_cons_self _ _))
                  (ih (K.body (normalizeTypeUrl url0) pkg resp.body) _)
                exact seqOK_unmarked (fun x hx => List.mem_cons_of_mem _ hx) hcg
          · simp only [if_neg ht]
            refine seqOK_trans ?_ (ih (K.body (normalizeTypeUrl url0) pkg t) _)
            exact seqOK_unmarked (fun x hx => List.mem_cons_of_mem _ hx) hcg
        | none =>
          simp only [hct]
          cases hfg : env.fetchGet (normalizeTypeUrl url0) with
          | error e =>
            simp only [hfg]
            refine seqOK_push ?_ hcg rfl hv (List.mem_cons_self _ _)
            exact seqOK_unmarked (fun x hx => List.mem_cons_of_mem _ hx) hcg
          | ok resp =>
            simp only [hfg]
            cases hok : resp.ok with
            | false =>
              simp only [hok, Bool.not_false, if_true]
              refine seqOK_push ?_ hcg rfl hv (List.mem_cons_self _ _)
              exact seqOK_unmarked (fun x hx => List.mem_cons_of_mem _ hx) hcg
            | true =>
              simp only [hok, Bool.not_true, Bool.false_eq_true, if_false]
              refine seqOK_trans (seqOK_push ?_ hcg rfl hv (List.mem_cons_self _ _))
                (ih (K.body (normalizeTypeUrl url0) pkg resp.body) _)
              exact seqOK_unmarked (fun x hx => List.mem_cons_of_mem _ hx) hcg
    | body url pkg text =>
      simp only [go]
      have hpure : SeqOK st (registerText st url pkg text) [] :=
        seqOK_unmarked (fun x hx => by rw [registerText_visited]; exact hx) (fun _ => rfl)
      cases hr1 : (go env f (K.refs (env.preProcess text).referencedFiles url)
          (registerText st url pkg text)).2.2 with
      | error e =>
        simp only [hr1]
        exact seqOK_trans hpure (ih _ _)
      | ok u =>
        simp only [hr1]
        exact seqOK_trans (seqOK_trans hpure (ih _ _)) (ih _ _)
    | refs rs url =>
      simp only [go]
      cases rs with
      | nil => exact seqOK_refl st
      | cons ref rest =>
        cases hres : env.resolveURL ref url with
        | error e =>
          simp only [hres]
          exact seqOK_refl st
        | ok cu =>
          simp only [hres]
          cases hr1 : (go env f (K.file (normalizeTypeUrl cu) none) st).2.2 with
          | error e =>
            simp only [hr1]
            exact ih _ st
          | ok u =>
            simp only [hr1]
            exact seqOK_trans (ih _ st) (ih _ _)
    | imps is url =>
      simp only [go]
      cases is with
      | nil => exact seqOK_refl st
      | cons imp rest =>
        cases hrel : startsWithL (".").data imp.data with
        | true =>
          simp only [hrel, if_true]
          cases hres : env.resolveURL imp url with
          | error e =>
            simp only [hres]
            exact seqOK_refl st
          | ok cu =>
            simp only [hres]
            cases hr1 : (go env f (K.file (normalizeTypeUrl cu) none) st).2.2 with
            | error e =>
              simp only [hr1]
              exact ih _ st
            | ok u =>
              simp only [hr1]
              exact seqOK_trans (ih _ st) (ih _ _)
        | false =>
          simp only [hrel, Bool.false_eq_true, if_false]
          cases hsl : imp.data.contains '/' with
          | false =>
            simp only [hsl, Bool.not_false, if_true]
            exact seqOK_trans (ih _ st) (ih _ _)
          | true =>
            simp only [hsl, Bool.not_true, Bool.false_eq_true, if_false]
            exact ih _ st



/-- `fetchEntry` never rejects: every branch ends in a caught state. -/
theorem go_entry_ok (env : Env) (fuel : Nat) (st : St) (spec : String) :
    (go env fuel (K.entry spec) st).2.2 = Except.ok () := by
  cases fuel with
  | zero => rfl
  | succ f =>
    simp only [go]
    by_cases hv : ("package:" ++ spec) ∈ st.visited
    · simp only [if_pos hv]
    · simp only [if_neg hv]
      cases hf : env.fetchHead ("https://esm.sh/" ++ spec) with
      | error e => simp only [hf]
      | ok resp =>
        simp only [hf]
        cases hok : resp.ok with
        | false => simp only [hok, Bool.not_false, if_true]
        | true =>
          simp only [hok, Bool.not_true, Bool.false_eq_true, if_false]
          cases hth : resp.typesHeader with
          | some hdr =>
            simp only [hth]
            cases hres : env.resolveURL hdr ("https://esm.sh/" ++ spec) with
            | error e => simp only [hres]
            | ok typesUrl => simp only [hres]
          | none => simp only [hth]

/-- A sequence of top-level `processFile`/`fetchEntry` invocations within
one process lifetime. -/
inductive TFCall where
  | processFile : String → Option String → TFCall
  | fetchEntry : String → TFCall

def TFCall.toK : TFCall → K
  | .processFile url pkg => K.file url pkg
  | .fetchEntry spec => K.entry spec

/-- Run the calls sequentially against the process-wide state,
concatenating the emitted network events. -/
def runCalls (env : Env) (fuel : Nat) : List TFCall → St → St × List Ev
  | [], st => (st, [])
  | c :: cs, st =>
    let r := go env fuel c.toK st
    let r2 := runCalls env fuel cs r.1
    (r2.1, r.2.1 ++ r2.2)

theorem runCalls_seqOK (env : Env) (fuel : Nat) :
    ∀ calls st, SeqOK st (runCalls env fuel calls st).1 (runCalls env fuel calls st).2 := by
  intro calls
  induction calls with
  | nil => intro st; exact seqOK_refl st
  | cons c cs ih =>
    intro st
    simp only [runCalls]
    exact seqOK_trans (go_seqOK env fuel c.toK st) (ih _)

/-- Claim C1: across any sequence of `processFile` and `fetchEntry` calls
in one process lifetime, (1) `processFile` returns immediately with no I/O
when its normalized URL's marker is already visited, (2) `fetchEntry`
returns immediately with no I/O when `package:specifier` is already
visited, and (3) the guarded network fetch for any marker is issued at
most once over the whole sequence — regardless of each attempt's outcome,
since markers are recorded before any I/O and never removed.  (Both
operations check and record their marker synchronously before their first
`await`, so a JS interleaving of concurrent calls for the same target
decomposes at the marker into the call sequences modelled here.) -/
theorem C1_visited_once (env : Env) (fuel : Nat) (st : St) (url spec : String)
    (pkg : Option String) (calls : List TFCall) (t : String) :
    (normalizeTypeUrl url ∈ st.visited →
      processFile env fuel st url pkg = (st, [], Except.ok ()))
    ∧ ("package:" ++ spec ∈ st.visited →
      fetchEntry env fuel st spec = (st, [], Except.ok ()))
    ∧ cnt t (runCalls env fuel calls st).2 ≤ 1 := by
  refine ⟨?_, ?_, ((runCalls_seqOK env fuel calls st).2 t).2.1⟩
  · intro h
    cases fuel with
    | zero => rfl
    | succ f => simp only [processFile, go, if_pos h]
  · intro h
    cases fuel with
    | zero => rfl
    | succ f => simp only [fetchEntry, go, if_pos h]

/-- A state in which both kinds of markers are already visited. -/
def stV : St :=
  ⟨[], [normalizeTypeUrl "https://esm.sh/react", "package:react"], [], ⟨[], 0, 0⟩⟩

/-- Witness for claim C1 at concrete inputs. -/
theorem C1_witness :
    processFile env50 3 stV "https://esm.sh/react" none = (stV, [], Except.ok ())
    ∧ fetchEntry env50 3 stV "react" = (stV, [], Except.ok ())
    ∧ cnt "package:react" (runCalls env50 3 [TFCall.fetchEntry "react"] stV).2 ≤ 1 :=
  ⟨(C1_visited_once env50 3 stV "https://esm.sh/react" "react" none
      [TFCall.fetchEntry "react"] "package:react").1 (by decide),
   (C1_visited_once env50 3 stV "https://esm.sh/react" "react" none
      [TFCall.fetchEntry "react"] "package:react").2.1 (by decide),
   (C1_visited_once env50 3 stV "https://esm.sh/react" "react" none
      [TFCall.fetchEntry "react"] "package:react").2.2⟩

/-- Claim C9: `fetchAndAddTypes` is total in the error dimension — for
every environment (arbitrary network failures, non-success HTTP responses,
throwing URL resolution) it resolves rather than rejects, because
`fetchEntry` and `processFile` catch every exception internally. -/
theorem C9_fetchAndAddTypes_never_rejects (env : Env) (fuel : Nat) (st : St) (spec : String) :
    (fetchAndAddTypes env fuel st spec).2.2 = Except.ok () :=
  go_entry_ok env fuel st spec

/-! ### `IntelliSenseManager` (src/utils/bundler.ts 85-751)

Modelled for the process-wide manager created without a config override:
`enableCache`/`enableAutoLoading` are `true`, `maxConcurrentLoads` is 3,
and `supportedLibraries` is the default allow-list. -/

/-- The default `supportedLibraries` allow-list (lines 103-180). -/
def supportedLibraries : List String :=
  ["react", "react-dom", "react-router", "react-router-dom", "react-query",
   "@tanstack/react-query", "react-hook-form", "formik",
   "zustand", "redux", "@reduxjs/toolkit", "mobx", "jotai", "recoil",
   "styled-components", "@emotion/react", "@emotion/styled", "tailwindcss",
   "classnames", "clsx",
   "lodash", "lodash-es", "ramda", "immer", "date-fns", "moment", "dayjs",
   "axios", "fetch", "ky", "swr",
   "framer-motion", "react-spring", "react-transition-group",
   "yup", "zod", "joi", "ajv",
   "jest", "@testing-library/react", "@testing-library/jest-dom", "vitest",
   "uuid", "nanoid", "crypto-js", "js-cookie",
   "@mui/material", "antd", "react-bootstrap", "chakra-ui", "@vapor-ui/core",
   "vapor-ui",
   "typescript", "eslint", "prettier"]

/-- Manager state: the `loadingQueue` and `loadedModules` sets plus the
walker's state (virtual file system, Monaco registry, cache). -/
structure MgrSt where
  loadingQueue : List String
  loadedModules : List String
  fx : St
deriving DecidableEq

/-- `IntelliSenseManager.loadLibrary` (lines 220-247): dedup on
loaded/loading, allow-list gate, mark loading, run the walker, mark loaded
on success, return `false` on a thrown error (the `catch`), and always
remove the loading mark (the `finally`).  An async JS function runs
synchronously up to its first `await`, so the check-and-mark prefix is
atomic; the embedding keeps that call atomic, which is faithful because
the only suspension point is the walker call itself. -/
def loadLibrary (env : Env) (fuel : Nat) (m : MgrSt) (name : String) :
    MgrSt × List Ev × Bool :=
  if name ∈ m.loadedModules ∨ name ∈ m.loadingQueue then (m, [], true)
  else if name ∉ supportedLibraries then (m, [], false)
  else
    let m1 : MgrSt := { m with loadingQueue := addUnique m.loadingQueue name }
    let r := fetchAndAddTypes env fuel m1.fx name
    match r.2.2 with
    | .ok _ =>
      ({ loadingQueue := (addUnique m.loadingQueue name).filter (fun x => x != name),
         loadedModules := addUnique m.loadedModules name, fx := r.1 }, r.2.1, true)
    | .error _ =>
      ({ loadingQueue := (addUnique m.loadingQueue name).filter (fun x => x != name),
         loadedModules := m.loadedModules, fx := r.1 }, r.2.1, false)

/-- `IntelliSenseManager.loadLibraries` (lines 252-268):
`Promise.allSettled` over `loadLibrary`.  Each async body runs its
synchronous check-and-mark prefix in list order and `loadLibrary` never
rejects, so the sequential composition reproduces the JS interleaving;
`allSettled` guarantees the batch itself never throws, returning one
`{library, success}` record per input name. -/
def loadLibraries (env : Env) (fuel : Nat) (m : MgrSt) (names : List String) :
    MgrSt × List Ev × List (String × Bool) :=
  match names with
  | [] => (m, [], [])
  | n :: rest =>
    let r := loadLibrary env fuel m n
    let r2 := loadLibraries env fuel r.1 rest
    (r2.1, r.2.1 ++ r2.2.1, (n, r.2.2) :: r2.2.2)

/-- The filter of `analyzeAndLoadTypes` (lines 277-282): allow-listed, not
yet loaded, not currently loading. -/
def analyzeFilter (m : MgrSt) (lib : String) : Bool :=
  decide (lib ∈ supportedLibraries) && !(decide (lib ∈ m.loadedModules))
    && !(decide (lib ∈ m.loadingQueue))

/-- The new libraries an `analyzeAndLoadTypes` call would load. -/
def analyzeNewLibraries (m : MgrSt) (code : String) : List String :=
  (extractImports code).filter (analyzeFilter m)

/-- `IntelliSenseManager.chunkArray` (lines 744-750), for chunk size at
least 1 (the source uses `maxConcurrentLoads = 3`). -/
def chunkArray : List String → Nat → List (List String)
  | [], _ => []
  | a :: t, k => List.take k (a :: t) :: chunkArray (List.drop (k - 1) t) k
termination_by l => l.length
decreasing_by
  simp only [List.length_cons]
  have := List.length_drop (k - 1) t
  omega

/-- The sequential `for (const chunk of chunks) await this.loadLibraries(chunk)`
loop (lines 294-296). -/
def loadChunks (env : Env) (fuel : Nat) : List (List String) → MgrSt → MgrSt × List Ev
  | [], m => (m, [])
  | c :: cs, m =>
    let r := loadLibraries env fuel m c
    let r2 := loadChunks env fuel cs r.1
    (r2.1, r.2.1 ++ r2.2)

/-- `/import\s*\{\s*([^}]+)\s*\}\s*from\s*['"]([^'"]+)['"]/g`
(`analyzeAndRegisterComponents`, line 309). -/
def namedImportPat : List RSeg :=
  lits ("import").data
    ++ [.item (.star wsChar), lit lbraceChar, .item (.star wsChar),
        .cap notRBraceChar, .item (.star wsChar), lit rbraceChar,
        .item (.star wsChar)]
    ++ lits ("from").data
    ++ [.item (.star wsChar), .item (.cls quoteChar), .cap notQuoteChar,
        .item (.cls quoteChar)]

/-- JS `String.prototype.split(",")`. -/
def splitOnCommaL : List Char → List (List Char)
  | [] => [[]]
  | c :: t =>
    let r := splitOnCommaL t
    if c = ',' then [] :: r
    else
      match r with
      | [] => [[c]]
      | h :: t2 => (c :: h) :: t2

/-- JS `String.prototype.trim()` (ASCII whitespace; the Unicode cases do
not occur in the modelled inputs). -/
def trimL (l : List Char) : List Char :=
  ((l.dropWhile wsChar).reverse.dropWhile wsChar).reverse

/-- `/^[A-Z]/.test(name)`. -/
def startsUpperL : List Char → Bool
  | [] => false
  | c :: _ => decide ('A' ≤ c ∧ c ≤ 'Z')

/-- Wrap a string in single quotes. -/
def q (s : String) : String := sq ++ s ++ sq

/-- `vaporUIPropsMap` (lines 363-380), keys to props-type strings. -/
def vaporUIPropsMap : List (String × String) :=
  [("Button", "\x7b variant?: " ++ q "solid" ++ " | " ++ q "outline" ++ " | " ++ q "ghost"
      ++ "; colorScheme?: string; size?: " ++ q "xs" ++ " | " ++ q "sm" ++ " | " ++ q "md"
      ++ " | " ++ q "lg"
      ++ "; isLoading?: boolean; onClick?: () => void; children: React.ReactNode \x7d"),
   ("Input", "\x7b variant?: " ++ q "outline" ++ " | " ++ q "filled" ++ " | " ++ q "flushed"
      ++ "; size?: " ++ q "xs" ++ " | " ++ q "sm" ++ " | " ++ q "md" ++ " | " ++ q "lg"
      ++ "; isInvalid?: boolean; placeholder?: string; value?: string; onChange?: (e: React.ChangeEvent<HTMLInputElement>) => void \x7d"),
   ("Box", "\x7b p?: number | string; m?: number | string; bg?: string; w?: string | number; h?: string | number; children?: React.ReactNode \x7d"),
   ("Stack", "\x7b spacing?: number | string; direction?: " ++ q "row" ++ " | " ++ q "column"
      ++ "; align?: " ++ q "start" ++ " | " ++ q "center" ++ " | " ++ q "end"
      ++ "; children: React.ReactNode \x7d"),
   ("Text", "\x7b fontSize?: string; color?: string; fontWeight?: string; children: React.ReactNode \x7d"),
   ("Heading", "\x7b size?: " ++ q "xs" ++ " | " ++ q "sm" ++ " | " ++ q "md" ++ " | "
      ++ q "lg" ++ " | " ++ q "xl" ++ " | " ++ q "2xl"
      ++ "; color?: string; children: React.ReactNode \x7d"),
   ("Flex", "\x7b direction?: " ++ q "row" ++ " | " ++ q "column" ++ "; align?: "
      ++ q "start" ++ " | " ++ q "center" ++ " | " ++ q "end" ++ "; justify?: "
      ++ q "start" ++ " | " ++ q "center" ++ " | " ++ q "end" ++ " | " ++ q "space-between"
      ++ "; children: React.ReactNode \x7d"),
   ("Card", "\x7b variant?: " ++ q "elevated" ++ " | " ++ q "outline" ++ " | " ++ q "filled"
      ++ "; p?: number | string; children: React.ReactNode \x7d"),
   ("Modal", "\x7b isOpen: boolean; onClose: () => void; size?: " ++ q "xs" ++ " | "
      ++ q "sm" ++ " | " ++ q "md" ++ " | " ++ q "lg" ++ " | " ++ q "xl"
      ++ "; children: React.ReactNode \x7d"),
   ("Alert", "\x7b status?: " ++ q "success" ++ " | " ++ q "error" ++ " | " ++ q "warning"
      ++ " | " ++ q "info" ++ "; variant?: " ++ q "solid" ++ " | " ++ q "subtle" ++ " | "
      ++ q "outline" ++ "; children: React.ReactNode \x7d")]

/-- `getVaporUIComponentProps` (lines 362-386). -/
def getVaporUIComponentProps (componentName : String) : String :=
  match lookupS vaporUIPropsMap componentName with
  | some p => p
  | none => "\x7b children?: React.ReactNode; [key: string]: any \x7d"

/-- The per-module props-type choice of `analyzeAndRegisterComponents`
(lines 330-352). -/
def propsTypeFor (moduleName name : String) : String :=
  if containsL ("vapor-ui").data moduleName.data
      || containsL ("@vapor-ui").data moduleName.data then
    getVaporUIComponentProps name
  else if containsL ("@mui").data moduleName.data then
    "import(" ++ q moduleName ++ ")." ++ name ++ "Props"
  else if containsL ("antd").data moduleName.data then
    "import(" ++ q moduleName ++ ")." ++ name ++ "Props"
  else "React.ComponentProps<any>"

/-- The `componentTypes` template of `registerComponent` (lines 419-429). -/
def componentTypesFor (name propsType : String) : String :=
  "\ndeclare global \x7b\n  namespace JSX \x7b\n    interface IntrinsicElements \x7b\n      "
    ++ name ++ ": " ++ propsType ++ ";\n    \x7d\n  \x7d\n\x7d\n\ndeclare const "
    ++ name ++ ": React.ComponentType<" ++ propsType ++ ">;\n"

/-- `registerComponent` (lines 418-437): unconditional `addExtraLib` at
the custom types path. -/
def registerComponent (libs : List (String × String)) (name propsType : String) :
    List (String × String) :=
  setS ("file:///node_modules/@types/custom/" ++ name ++ ".d.ts")
    (componentTypesFor name propsType) libs

/-- `registerComponents` (lines 442-446). -/
def registerComponents (libs : List (String × String))
    (comps : List (String × String)) : List (String × String) :=
  comps.foldl (fun l e => registerComponent l e.1 e.2) libs

/-- `analyzeAndRegisterComponents` (lines 305-357): for every named-import
match, trim and split the import list, keep capitalized names, build the
per-module props map (JS object: first-insertion order, last assignment
wins) and register each component. -/
def analyzeAndRegisterComponents (m : MgrSt) (code : String) : MgrSt :=
  let ms := execAll namedImportPat (code.data.length + 1) code.data
  ms.foldl
    (fun acc mt =>
      match mt with
      | namesRaw :: moduleName :: _ =>
        let importedNames :=
          (splitOnCommaL namesRaw.data).map (fun l => (⟨trimL l⟩ : String))
        let componentNames := importedNames.filter (fun n => startsUpperL n.data)
        if componentNames = [] then acc
        else
          let defs :=
            componentNames.foldl (fun d n => setS n (propsTypeFor moduleName n) d) []
          { acc with fx :=
              { acc.fx with extraLibs := registerComponents acc.fx.extraLibs defs } }
      | _ => acc)
    m

/-- `IntelliSenseManager.analyzeAndLoadTypes` (lines 273-300): extract and
filter imports, return early when nothing is new, otherwise load in
sequential chunks of `maxConcurrentLoads = 3` and then register inferred
component shapes. -/
def analyzeAndLoadTypes (env : Env) (fuel : Nat) (m : MgrSt) (code : String) :
    MgrSt × List Ev :=
  let newLibraries := analyzeNewLibraries m code
  if newLibraries = [] then (m, [])
  else
    let r := loadChunks env fuel (chunkArray newLibraries 3) m
    (analyzeAndRegisterComponents r.1 code, r.2)



theorem mem_addUnique_self (l : List String) (x : String) : x ∈ addUnique l x := by
  rw [addUnique]
  split
  · assumption
  · simp

theorem mem_addUnique_of_mem {l : List String} {x y : String} (h : x ∈ l) :
    x ∈ addUnique l y := by
  rw [addUnique]
  split
  · exact h
  · exact List.mem_append.mpr (Or.inl h)

theorem mem_addUnique_iff {l : List String} {x y : String} :
    x ∈ addUnique l y ↔ x ∈ l ∨ x = y := by
  rw [addUnique]
  split
  · refine ⟨Or.inl, fun h => ?_⟩
    rcases h with h | rfl
    · exact h
    · assumption
  · simp [List.mem_append]

theorem filter_addUnique_ne {l : List String} {x : String} (h : x ∉ l) :
    (addUnique l x).filter (fun y => y != x) = l := by
  rw [addUnique, if_neg h, List.filter_append]
  have h1 : l.filter (fun y => y != x) = l :=
    List.filter_eq_self.mpr fun y hy => by
      simp only [bne_iff_ne, ne_eq, decide_eq_true_eq]
      exact fun he => h (he ▸ hy)
  simp [h1]

/-- The success flag `loadLibrary` reports, as a function of the name and
the pre-call state only. -/
def flagB (m : MgrSt) (n : String) : Bool :=
  decide (n ∈ m.loadedModules) || decide (n ∈ m.loadingQueue)
    || decide (n ∈ supportedLibraries)

theorem loadLibrary_flag (env : Env) (fuel : Nat) (m : MgrSt) (n : String) :
    (loadLibrary env fuel m n).2.2 = flagB m n := by
  rw [loadLibrary]
  by_cases h1 : n ∈ m.loadedModules ∨ n ∈ m.loadingQueue
  · rw [if_pos h1]
    rcases h1 with h | h <;> simp [flagB, h]
  · rw [if_neg h1]
    push_neg at h1
    by_cases h2 : n ∈ supportedLibraries
    · rw [if_neg (fun hh => hh h2)]
      have hok := go_entry_ok env fuel
        ({ m with loadingQueue := addUnique m.loadingQueue n } : MgrSt).fx n
      simp only [fetchAndAddTypes, fetchEntry] at *
      simp only [hok]
      simp [flagB, h1.1, h1.2, h2]
    · rw [if_pos h2]
      simp [flagB, h1.1, h1.2, h2]

theorem loadLibrary_ext (env : Env) (fuel : Nat) (m : MgrSt) (n : String) :
    (loadLibrary env fuel m n).1.loadingQueue = m.loadingQueue
    ∧ (∀ x, x ∈ m.loadedModules → x ∈ (loadLibrary env fuel m n).1.loadedModules)
    ∧ (∀ x, x ∈ (loadLibrary env fuel m n).1.loadedModules →
        x ∈ m.loadedModules ∨ x ∈ supportedLibraries) := by
  rw [loadLibrary]
  by_cases h1 : n ∈ m.loadedModules ∨ n ∈ m.loadingQueue
  · rw [if_pos h1]
    exact ⟨rfl, fun x h => h, fun x h => Or.inl h⟩
  · rw [if_neg h1]
    push_neg at h1
    by_cases h2 : n ∈ supportedLibraries
    · rw [if_neg (fun hh => hh h2)]
      have hok := go_entry_ok env fuel
        ({ m with loadingQueue := addUnique m.loadingQueue n } : MgrSt).fx n
      simp only [fetchAndAddTypes, fetchEntry] at *
      simp only [hok]
      refine ⟨filter_addUnique_ne h1.2, fun x h => mem_addUnique_of_mem h, fun x h => ?_⟩
      rcases mem_addUnique_iff.mp h with h | rfl
      · exact Or.inl h
      · exact Or.inr h2
    · rw [if_pos h2]
      exact ⟨rfl, fun x h => h, fun x h => Or.inl h⟩

theorem flagB_ext {m m' : MgrSt}
    (hq : m'.loadingQueue = m.loadingQueue)
    (h1 : ∀ x, x ∈ m.loadedModules → x ∈ m'.loadedModules)
    (h2 : ∀ x, x ∈ m'.loadedModules → x ∈ m.loadedModules ∨ x ∈ supportedLibraries)
    (n : String) : flagB m' n = flagB m n := by
  rw [Bool.eq_iff_iff]
  simp only [flagB, Bool.or_eq_true, decide_eq_true_eq, hq]
  constructor
  · rintro ((h | h) | h)
    · rcases h2 n h with h' | h'
      · exact Or.inl (Or.inl h')
      · exact Or.inr h'
    · exact Or.inl (Or.inr h)
    · exact Or.inr h
  · rintro ((h | h) | h)
    · exact Or.inl (Or.inl (h1 n h))
    · exact Or.inl (Or.inr h)
    · exact Or.inr h

/-- Claim C3 (amended): `loadLibraries` returns exactly one
`(library, success)` record per input name, in order; each name's flag is
a function of that name and the pre-call state alone — true iff the name
is already loaded/loading or allow-listed — so one name's outcome cannot
affect another's, and network failures (swallowed inside the walker)
never make an allow-listed load report failure.  The batch itself never
throws: the embedding is a total function, mirroring
`Promise.allSettled`. -/
theorem C3_loadLibraries_per_name (env : Env) (fuel : Nat) (m : MgrSt)
    (names : List String) :
    (loadLibraries env fuel m names).2.2 = names.map (fun n => (n, flagB m n)) := by
  induction names generalizing m with
  | nil => rfl
  | cons n rest ih =>
    simp only [loadLibraries, List.map_cons]
    refine congrArg₂ _ ?_ ?_
    · rw [loadLibrary_flag]
    · rw [ih]
      obtain ⟨hq, h1, h2⟩ := loadLibrary_ext env fuel m n
      exact List.map_congr_left fun x _ => by rw [flagB_ext hq h1 h2]



/-- The freshly constructed manager state. -/
def m0 : MgrSt := ⟨[], [], ⟨[], [], [], ⟨[], 0, 0⟩⟩⟩

/-- Claim C2: `loadLibrary` dedups on the loading and loaded marks
(returning immediately with no I/O); for an allow-listed fresh name it
reaches a terminal state with the name marked loaded and the loading mark
removed under EVERY environment — network failures included, since the
walker swallows them — reports `true`, and a subsequent `loadLibrary` of
the same name is an I/O-free no-op; `analyzeAndLoadTypes` filters loaded
names out before loading.  Retry therefore requires an explicit state
reset. -/
theorem C2_loadLibrary_load_state (env : Env) (fuel : Nat) (m : MgrSt) (name : String) :
    (name ∈ m.loadingQueue → loadLibrary env fuel m name = (m, [], true))
    ∧ (name ∈ m.loadedModules → loadLibrary env fuel m name = (m, [], true))
    ∧ (name ∈ supportedLibraries → name ∉ m.loadedModules → name ∉ m.loadingQueue →
        (loadLibrary env fuel m name).2.2 = true
        ∧ name ∈ (loadLibrary env fuel m name).1.loadedModules
        ∧ (loadLibrary env fuel m name).1.loadingQueue = m.loadingQueue
        ∧ loadLibrary env fuel (loadLibrary env fuel m name).1 name
            = ((loadLibrary env fuel m name).1, [], true))
    ∧ (∀ code, name ∈ m.loadedModules → name ∉ analyzeNewLibraries m code) := by
  refine ⟨?_, ?_, ?_, ?_⟩
  · intro h
    rw [loadLibrary, if_pos (Or.inr h)]
  · intro h
    rw [loadLibrary, if_pos (Or.inl h)]
  · intro h1 h2 h3
    have hmem : name ∈ (loadLibrary env fuel m name).1.loadedModules := by
      rw [loadLibrary, if_neg (by push_neg; exact ⟨h2, h3⟩), if_neg (fun hh => hh h1)]
      have hok := go_entry_ok env fuel
        ({ m with loadingQueue := addUnique m.loadingQueue name } : MgrSt).fx name
      simp only [fetchAndAddTypes, fetchEntry] at *
      simp only [hok]
      exact mem_addUnique_self _ _
    refine ⟨?_, hmem, (loadLibrary_ext env fuel m name).1, ?_⟩
    · rw [loadLibrary_flag]
      simp [flagB, h1]
    · rw [loadLibrary, if_pos (Or.inl hmem)]
  · intro code hld hmem
    have h2 := (List.mem_filter.mp hmem).2
    simp [analyzeFilter, hld] at h2

/-- Witness for claim C2 at a concrete input: the allow-listed name
`"react"` loaded from the fresh state under the all-failing network
environment. -/
theorem C2_witness :
    (loadLibrary env50 2 m0 "react").2.2 = true
    ∧ "react" ∈ (loadLibrary env50 2 m0 "react").1.loadedModules
    ∧ (loadLibrary env50 2 m0 "react").1.loadingQueue = m0.loadingQueue
    ∧ loadLibrary env50 2 (loadLibrary env50 2 m0 "react").1 "react"
        = ((loadLibrary env50 2 m0 "react").1, [], true) := by
  have h := (C2_loadLibrary_load_state env50 2 m0 "react").2.2.1
    (by decide) (by decide) (by decide)
  exact ⟨h.1, h.2.1, h.2.2.1, h.2.2.2⟩

/-- Claim C3, counterexample to the claim as stated: with the real
allow-list, `loadLibraries(["good", "bad-unreachable"])` returns
`success: false` for BOTH names (neither is allow-listed; no network
request is even attempted), not `[{good, true}, {bad-unreachable,
false}]`. -/
theorem C3_counterexample :
    (loadLibraries env50 1 m0 ["good", "bad-unreachable"]).2.2
      = [("good", false), ("bad-unreachable", false)]
    ∧ ¬ (loadLibraries env50 1 m0 ["good", "bad-unreachable"]).2.2
        = [("good", true), ("bad-unreachable", false)] := by
  refine ⟨by decide, by decide⟩

end RCP
